import Mathlib

/-!
# Verification of the `pfx` prefix-tree map and set

Shallow embedding of `src/map.rs` and `src/set.rs` (crate `pfx`): an ordered
map from byte strings to values backed by a trie, plus a set wrapper.

Conventions of the embedding:
* Bytes (`u8`) are embedded as `Nat`; the code never exploits the 0..=255
  bound, so no modular arithmetic is needed.
* A Rust key type `K: AsRef<[u8]>` is embedded as a type `K` together with an
  explicit byte-projection `kb : K → List Nat` passed to the operations that
  call `key.as_ref()`.
* `&mut`-style in-place mutation is embedded by returning the updated value.
* The two Rust iterator families (`NodeIter` borrowing, `NodeIntoIter`
  owning) have literally identical `next` logic up to reference-vs-value, so
  both embed to the single state machine `NodeIterS` below.
* Recursion in iterator `next` (the `self.next()` retry in the source) is
  embedded with an explicit fuel argument; the wrapper passes a fuel that is
  provably sufficient (`NodeIterS.size`), so the fuel-free wrappers are exact.
-/

namespace Pfx

/-- Embeds `struct Node<K, V>` from `src/map.rs` (lines 448-453):
`item: Option<(K, V)>`, `key_fragment: u8`, `children: Vec<Node<K, V>>`. -/
inductive Node (K V : Type) : Type where
  | mk : Option (K × V) → Nat → List (Node K V) → Node K V

/-- Projection for the `item` field. -/
def Node.item {K V : Type} : Node K V → Option (K × V)
  | .mk it _ _ => it

/-- Projection for the `key_fragment` field. -/
def Node.key_fragment {K V : Type} : Node K V → Nat
  | .mk _ kf _ => kf

/-- Projection for the `children` field. -/
def Node.children {K V : Type} : Node K V → List (Node K V)
  | .mk _ _ cs => cs

/-- Embeds `Node::with_key_fragment` (map.rs 461-467). -/
def Node.with_key_fragment {K V : Type} (kf : Nat) : Node K V :=
  .mk none kf []

/-- Embeds `Node::root` (map.rs 456-459): key of root does not matter, 0 is used. -/
def Node.root {K V : Type} : Node K V :=
  Node.with_key_fragment 0

/-- Embeds `Node::value` (map.rs 485-487). -/
def Node.value {K V : Type} (n : Node K V) : Option V :=
  n.item.map (fun kv => kv.2)

/-- The loop of `slice::binary_search_by_key` over the list of child
`key_fragment`s (called at map.rs 509, 522, 535): classic midpoint binary
search on the half-open interval `[lo, hi)`, returning `Except.ok index` when
the target is found and `Except.error insertionIndex` otherwise.  The `fuel`
argument makes the recursion structural; `binarySearch` below passes
`frags.length`, which always suffices since the interval shrinks at every
step. -/
def bsGo (frags : List Nat) (target : Nat) : Nat → Nat → Nat → Except Nat Nat
  | 0, lo, _ => Except.error lo
  | fuel + 1, lo, hi =>
    if lo < hi then
      let mid := (lo + hi) / 2
      let k := frags.getD mid 0
      if k < target then bsGo frags target fuel (mid + 1) hi
      else if target < k then bsGo frags target fuel lo mid
      else Except.ok mid
    else Except.error lo

/-- Embeds `children.binary_search_by_key(&byte, |node| node.key_fragment)`,
specialised to the list of fragments. -/
def binarySearch (frags : List Nat) (target : Nat) : Except Nat Nat :=
  bsGo frags target frags.length 0 frags.length

/-- Binary search over a node's children keyed by `key_fragment`. -/
def Node.childSearch {K V : Type} (n : Node K V) (byte : Nat) : Except Nat Nat :=
  binarySearch (n.children.map Node.key_fragment) byte

/-- Embeds `Node::search` (map.rs 501-512).  The default value `n` passed to
`getD` is never used: a successful binary search always returns an in-range
index. -/
def Node.search {K V : Type} : Node K V → List Nat → Option (Node K V)
  | n, [] => some n
  | n, b :: bs =>
    match n.childSearch b with
    | Except.ok i => (n.children.getD i n).search bs
    | Except.error _ => none

/-- Embeds `Node::search_or_insert` (map.rs 527-544) combined with the entry
protocol's subsequent access to the found node's `item` slot (`entry`,
map.rs 196-206, takes `&mut node.item`; `VacantEntry::insert` map.rs 673-677
and `OccupiedEntry` methods map.rs 696-726 only ever mutate that slot).
`f` is what the caller does to the slot; the second component is whatever
information the caller extracts.  Where a child is missing, a fresh node is
inserted at the `Except.error` insertion index, exactly as in the source. -/
def Node.updateAt {K V α : Type} (f : Option (K × V) → Option (K × V) × α) :
    Node K V → List Nat → Node K V × α
  | n, [] =>
    let r := f n.item
    (.mk r.1 n.key_fragment n.children, r.2)
  | n, b :: bs =>
    match n.childSearch b with
    | Except.ok i =>
      let r := (n.children.getD i n).updateAt f bs
      (.mk n.item n.key_fragment (n.children.set i r.1), r.2)
    | Except.error i =>
      let r := (Node.with_key_fragment b).updateAt f bs
      (.mk n.item n.key_fragment (n.children.insertIdx i r.1), r.2)

/-- Embeds the effect of `PrefixTreeMap::remove_entry` on the tree
(map.rs 88-96): `search_mut` to the node, then `item.take()`.  Returns
`none` when either the path or the item is absent, in which case the caller
leaves the tree untouched (`take` on `None` is a no-op). -/
def Node.takeItemAt {K V : Type} : Node K V → List Nat → Option ((K × V) × Node K V)
  | n, [] =>
    match n.item with
    | none => none
    | some kv => some (kv, .mk none n.key_fragment n.children)
  | n, b :: bs =>
    match n.childSearch b with
    | Except.ok i =>
      ((n.children.getD i n).takeItemAt bs).map
        (fun r => (r.1, .mk n.item n.key_fragment (n.children.set i r.2)))
    | Except.error _ => none

mutual
/-- Embeds `Node::compact` (map.rs 471-481): children are recursively
compacted and retained exactly when useful; the returned flag is
`has_useful_children || item.is_some()`. -/
def Node.compact {K V : Type} : Node K V → Node K V × Bool
  | .mk it kf cs =>
    let r := Node.compactPile cs
    (.mk it kf r.1, r.2 || it.isSome)

/-- The `retain_mut` loop of `Node::compact` over the children, with the
running `has_useful_children` accumulator. -/
def Node.compactPile {K V : Type} : List (Node K V) → List (Node K V) × Bool
  | [] => ([], false)
  | c :: rest =>
    let rc := c.compact
    let rr := Node.compactPile rest
    (if rc.2 then rc.1 :: rr.1 else rr.1, rc.2 || rr.2)
end

mutual
/-- Specification-level: the in-order listing of a subtree — the node's own
item first, then the children in order.  This is the sequence the iterators
of map.rs yield from a node. -/
def Node.toList {K V : Type} : Node K V → List (K × V)
  | .mk it _ cs => it.toList ++ Node.toListPile cs

/-- In-order listing of a list of sibling subtrees. -/
def Node.toListPile {K V : Type} : List (Node K V) → List (K × V)
  | [] => []
  | c :: rest => c.toList ++ Node.toListPile rest
end

mutual
/-- Specification-level: number of populated items in a subtree. -/
def Node.count {K V : Type} : Node K V → Nat
  | .mk it _ cs => (if it.isSome then 1 else 0) + Node.countPile cs

/-- Number of populated items in a list of sibling subtrees. -/
def Node.countPile {K V : Type} : List (Node K V) → Nat
  | [] => 0
  | c :: rest => c.count + Node.countPile rest
end

/-- Decides whether a list of fragments is strictly ascending (the sortedness
invariant of the `children` array, map.rs data-model comment). -/
def ascFragsB : List Nat → Bool
  | [] => true
  | [_] => true
  | a :: b :: rest => decide (a < b) && ascFragsB (b :: rest)

mutual
/-- Structural well-formedness: in every node the children are strictly
sorted by `key_fragment` (hence labels are unique). -/
def Node.sortedB {K V : Type} : Node K V → Bool
  | .mk _ _ cs => ascFragsB (cs.map Node.key_fragment) && Node.sortedPileB cs

/-- All nodes of a list of sibling subtrees are sorted. -/
def Node.sortedPileB {K V : Type} : List (Node K V) → Bool
  | [] => true
  | c :: rest => c.sortedB && Node.sortedPileB rest
end

mutual
/-- Key/path coherence: every stored item's key has exactly the byte path of
its node (relative byte projection `kb`, path accumulated in `path`). -/
def Node.pathOkB {K V : Type} (kb : K → List Nat) : List Nat → Node K V → Bool
  | path, .mk it _ cs =>
    (match it with
     | none => true
     | some kv => decide (kb kv.1 = path)) && Node.pathOkPileB kb path cs

/-- Path coherence for a list of sibling subtrees below `path`. -/
def Node.pathOkPileB {K V : Type} (kb : K → List Nat) : List Nat → List (Node K V) → Bool
  | _, [] => true
  | path, c :: rest =>
    Node.pathOkB kb (path ++ [c.key_fragment]) c && Node.pathOkPileB kb path rest
end

mutual
/-- Whether a subtree contains at least one populated item. -/
def Node.hasItem {K V : Type} : Node K V → Bool
  | .mk it _ cs => it.isSome || Node.hasItemPile cs

/-- Whether a list of sibling subtrees contains at least one populated item. -/
def Node.hasItemPile {K V : Type} : List (Node K V) → Bool
  | [] => false
  | c :: rest => c.hasItem || Node.hasItemPile rest
end

/-- Specification-level child lookup by fragment (the unique child with the
given label, on sorted children). -/
def Node.child? {K V : Type} (n : Node K V) (b : Nat) : Option (Node K V) :=
  n.children.find? (fun c => c.key_fragment == b)

/-- Specification-level: the item slot reached by a byte path, `none` when
the path is absent. -/
def Node.slotAt {K V : Type} (n : Node K V) (p : List Nat) : Option (K × V) :=
  (n.search p).bind Node.item

mutual
/-- Size measure used as iterator fuel. -/
def Node.size {K V : Type} : Node K V → Nat
  | .mk it _ cs => 1 + (if it.isSome then 1 else 0) + Node.sizePile cs

/-- Size measure of a list of sibling subtrees. -/
def Node.sizePile {K V : Type} : List (Node K V) → Nat
  | [] => 0
  | c :: rest => 1 + c.size + Node.sizePile rest
end

/-- Embeds the shared state of `NodeIter` (map.rs 772-776) and `NodeIntoIter`
(map.rs 729-733): the pending `item`, the remaining `children_iter`, and the
boxed `curr_child_iter`. -/
inductive NodeIterS (K V : Type) : Type where
  | mk : Option (K × V) → List (Node K V) → Option (NodeIterS K V) → NodeIterS K V

/-- Size measure of an iterator state, used as fuel below. -/
def NodeIterS.size {K V : Type} : NodeIterS K V → Nat
  | .mk it cs none => 1 + (if it.isSome then 1 else 0) + Node.sizePile cs
  | .mk it cs (some s) => 1 + (if it.isSome then 1 else 0) + Node.sizePile cs + s.size

/-- Embeds `Node::iter` (map.rs 560-572) and `Node::into_iter` (map.rs
546-558): takes the node's item, pre-expands the first child into
`curr_child_iter`, and keeps the remaining children. -/
def Node.iterS {K V : Type} : Node K V → NodeIterS K V
  | .mk it _ [] => .mk it [] none
  | .mk it _ (c :: rest) => .mk it rest (some c.iterS)

/-- Embeds `<NodeIter as Iterator>::next` (map.rs 778-810) and the identical
`<NodeIntoIter as Iterator>::next` (map.rs 735-767): yield the own item
first; else pull from the current child iterator; once the current child is
exhausted, install the next child's iterator and retry.  The retry
(`self.next()` in the source) consumes one unit of fuel. -/
def NodeIterS.nextF {K V : Type} : Nat → NodeIterS K V → Option ((K × V) × NodeIterS K V)
  | 0, _ => none
  | _ + 1, .mk (some it) cs cc => some (it, .mk none cs cc)
  | fuel + 1, .mk none cs cc =>
    match (match cc with
           | some child => NodeIterS.nextF fuel child
           | none => none) with
    | some (x, child') => some (x, .mk none cs (some child'))
    | none =>
      match cs with
      | [] => none
      | c :: rest => NodeIterS.nextF fuel (.mk none rest (some c.iterS))

/-- Fuel-free `next`: `NodeIterS.size` fuel is always sufficient (proved
below), so this is the exact step function of the source iterators. -/
def NodeIterS.next {K V : Type} (s : NodeIterS K V) : Option ((K × V) × NodeIterS K V) :=
  NodeIterS.nextF s.size s

/-- Runs the iterator to exhaustion, collecting the yields (fuelled). -/
def NodeIterS.runF {K V : Type} : Nat → NodeIterS K V → List (K × V)
  | 0, _ => []
  | fuel + 1, s =>
    match s.next with
    | none => []
    | some (x, s') => x :: NodeIterS.runF fuel s'

/-- The full yield sequence of an iterator state. -/
def NodeIterS.run {K V : Type} (s : NodeIterS K V) : List (K × V) :=
  NodeIterS.runF s.size s

/-- Specification-level denotation of an iterator state: pending item, then
the current child's remainder, then the untouched children. -/
def NodeIterS.denote {K V : Type} : NodeIterS K V → List (K × V)
  | .mk it cs none => it.toList ++ Node.toListPile cs
  | .mk it cs (some s) => it.toList ++ s.denote ++ Node.toListPile cs

/-- Embeds `pub struct PrefixTreeMap<K, V> { root: Node<K, V>, len: usize }`
(map.rs 9-13). -/
structure PrefixTreeMap (K V : Type) : Type where
  root : Node K V
  len : Nat

/-- Embeds `PrefixTreeMap::new` (map.rs 23-25). -/
def PrefixTreeMap.new {K V : Type} : PrefixTreeMap K V :=
  ⟨Node.root, 0⟩

/-- Embeds `PrefixTreeMap::is_empty` (map.rs 33-35). -/
def PrefixTreeMap.is_empty {K V : Type} (m : PrefixTreeMap K V) : Bool :=
  m.len == 0

/-- Embeds `PrefixTreeMap::get_entry` (map.rs 38-45); the key argument is
already projected to bytes (`key.as_ref()`). -/
def PrefixTreeMap.get_entry {K V : Type} (m : PrefixTreeMap K V) (key : List Nat) :
    Option (K × V) :=
  (m.root.search key).bind Node.item

/-- Embeds `PrefixTreeMap::get` (map.rs 58-65). -/
def PrefixTreeMap.get {K V : Type} (m : PrefixTreeMap K V) (key : List Nat) : Option V :=
  (m.root.search key).bind Node.value

/-- Embeds `PrefixTreeMap::contains_key` (map.rs 78-85). -/
def PrefixTreeMap.contains_key {K V : Type} (m : PrefixTreeMap K V) (key : List Nat) : Bool :=
  match m.root.search key with
  | none => false
  | some n => n.item.isSome

/-- Embeds `PrefixTreeMap::remove_entry` (map.rs 88-96): on success the item
is taken and `len` is decremented; otherwise the map is unchanged. -/
def PrefixTreeMap.remove_entry {K V : Type} (m : PrefixTreeMap K V) (key : List Nat) :
    Option (K × V) × PrefixTreeMap K V :=
  match m.root.takeItemAt key with
  | none => (none, m)
  | some (kv, root') => (some kv, ⟨root', m.len - 1⟩)

/-- Embeds `PrefixTreeMap::remove` (map.rs 99-104). -/
def PrefixTreeMap.remove {K V : Type} (m : PrefixTreeMap K V) (key : List Nat) :
    Option V × PrefixTreeMap K V :=
  let r := m.remove_entry key
  (r.1.map (fun kv => kv.2), r.2)

/-- Embeds the effect of `PrefixTreeMap::entry` (map.rs 196-206) when the
returned `Entry` is dropped without inserting: the `search_or_insert`
traversal materialises the path (possibly creating empty nodes), `len` is
untouched, and the returned flag tells whether the entry was `Vacant`. -/
def PrefixTreeMap.entryProbe {K V : Type} (kb : K → List Nat) (m : PrefixTreeMap K V)
    (key : K) : PrefixTreeMap K V × Bool :=
  let r := m.root.updateAt (fun slot => (slot, slot.isNone)) (kb key)
  (⟨r.1, m.len⟩, r.2)

/-- Embeds `PrefixTreeMap::insert` (map.rs 211-219): `entry` followed by
`VacantEntry::insert` (stores `(key, value)`, `len += 1`, map.rs 673-677) or
`OccupiedEntry::insert` (replaces only the value, keeps the original key,
returns the previous value, map.rs 714-716). -/
def PrefixTreeMap.insert {K V : Type} (kb : K → List Nat) (m : PrefixTreeMap K V)
    (key : K) (value : V) : PrefixTreeMap K V × Option V :=
  let r := m.root.updateAt
    (fun slot =>
      match slot with
      | none => (some (key, value), none)
      | some kv => (some (kv.1, value), some kv.2))
    (kb key)
  (⟨r.1, match r.2 with | none => m.len + 1 | some _ => m.len⟩, r.2)

/-- Embeds one step of `symmetric_difference_in_place` (map.rs 290-300):
`entry(key)`, then `OccupiedEntry::remove` (slot taken, `len -= 1`) or
`VacantEntry::insert` (slot written, `len += 1`). -/
def PrefixTreeMap.symStep {K V : Type} (kb : K → List Nat) (m : PrefixTreeMap K V)
    (kv : K × V) : PrefixTreeMap K V :=
  let r := m.root.updateAt
    (fun slot =>
      match slot with
      | none => (some kv, false)
      | some _ => (none, true))
    (kb kv.1)
  ⟨r.1, if r.2 then m.len - 1 else m.len + 1⟩

/-- Embeds `PrefixTreeMap::symmetric_difference_in_place` (map.rs 290-300). -/
def PrefixTreeMap.symmetric_difference_in_place {K V : Type} (kb : K → List Nat)
    (m : PrefixTreeMap K V) (other : List (K × V)) : PrefixTreeMap K V :=
  other.foldl (PrefixTreeMap.symStep kb) m

/-- Embeds `PrefixTreeMap::symmetric_difference` (map.rs 279-285): the
in-place variant followed by returning `self`. -/
def PrefixTreeMap.symmetric_difference {K V : Type} (kb : K → List Nat)
    (m : PrefixTreeMap K V) (other : List (K × V)) : PrefixTreeMap K V :=
  PrefixTreeMap.symmetric_difference_in_place kb m other

/-- Embeds `PrefixTreeMap::union_in_place` (map.rs 233-240). -/
def PrefixTreeMap.union_in_place {K V : Type} (kb : K → List Nat)
    (m : PrefixTreeMap K V) (other : List (K × V)) : PrefixTreeMap K V :=
  other.foldl (fun acc kv => (PrefixTreeMap.insert kb acc kv.1 kv.2).1) m

/-- Embeds `PrefixTreeMap::union` (map.rs 223-229). -/
def PrefixTreeMap.union {K V : Type} (kb : K → List Nat)
    (m : PrefixTreeMap K V) (other : List (K × V)) : PrefixTreeMap K V :=
  PrefixTreeMap.union_in_place kb m other

/-- Embeds `PrefixTreeMap::difference_in_place` (map.rs 266-274); the other
side supplies byte sequences only. -/
def PrefixTreeMap.difference_in_place {K V : Type} (m : PrefixTreeMap K V)
    (other : List (List Nat)) : PrefixTreeMap K V :=
  other.foldl (fun acc q => (PrefixTreeMap.remove acc q).2) m

/-- Embeds `PrefixTreeMap::difference` (map.rs 256-263). -/
def PrefixTreeMap.difference {K V : Type} (m : PrefixTreeMap K V)
    (other : List (List Nat)) : PrefixTreeMap K V :=
  PrefixTreeMap.difference_in_place m other

/-- The loop body of `PrefixTreeMap::intersection` (map.rs 244-253): remove
the key from `self`; when it was present, insert the removed pair into the
collected result. -/
def PrefixTreeMap.interStep {K V : Type} (kb : K → List Nat)
    (st : PrefixTreeMap K V × PrefixTreeMap K V) (q : List Nat) :
    PrefixTreeMap K V × PrefixTreeMap K V :=
  let r := PrefixTreeMap.remove_entry st.1 q
  match r.1 with
  | none => (r.2, st.2)
  | some kv => (r.2, (PrefixTreeMap.insert kb st.2 kv.1 kv.2).1)

/-- Embeds `PrefixTreeMap::intersection` (map.rs 244-253):
`other.into_iter().filter_map(|key| self.remove_entry(&key)).collect()` —
the fold carries the progressively emptied `self` and the collected result. -/
def PrefixTreeMap.intersection {K V : Type} (kb : K → List Nat) (m : PrefixTreeMap K V)
    (other : List (List Nat)) : PrefixTreeMap K V :=
  (other.foldl (PrefixTreeMap.interStep kb) (m, PrefixTreeMap.new)).2

/-- Embeds `PrefixTreeMap::compact` (map.rs 181-183): the root is compacted
and always kept; `len` is untouched. -/
def PrefixTreeMap.compact {K V : Type} (m : PrefixTreeMap K V) : PrefixTreeMap K V :=
  ⟨(m.root.compact).1, m.len⟩

/-- Embeds `pub struct Iter<'a, K, V> { iter: NodeIter, len: usize }`
(map.rs 843-846) and the identical owning `IntoIter` (map.rs 815-818). -/
structure Iter (K V : Type) : Type where
  iter : NodeIterS K V
  len : Nat

/-- Embeds `PrefixTreeMap::iter` (map.rs 109-111). -/
def PrefixTreeMap.iter {K V : Type} (m : PrefixTreeMap K V) : Iter K V :=
  ⟨m.root.iterS, m.len⟩

/-- Embeds `<PrefixTreeMap as IntoIterator>::into_iter` (map.rs 350-360);
the owning iterator is built from the same node walk and the same `len`. -/
def PrefixTreeMap.into_iter {K V : Type} (m : PrefixTreeMap K V) : Iter K V :=
  ⟨m.root.iterS, m.len⟩

/-- Embeds `<Iter as Iterator>::next` (map.rs 848-855) and the identical
`<IntoIter as Iterator>::next` (map.rs 820-828): forward to the node
iterator and decrement `len` on success. -/
def Iter.next {K V : Type} (st : Iter K V) : Option ((K × V) × Iter K V) :=
  match st.iter.next with
  | none => none
  | some (x, it') => some (x, ⟨it', st.len - 1⟩)

/-- Runs a map iterator to exhaustion (fuelled). -/
def Iter.runF {K V : Type} : Nat → Iter K V → List (K × V)
  | 0, _ => []
  | fuel + 1, st =>
    match st.next with
    | none => []
    | some (x, st') => x :: Iter.runF fuel st'

/-- The full yield sequence of a map iterator. -/
def Iter.run {K V : Type} (st : Iter K V) : List (K × V) :=
  Iter.runF st.iter.size st

/-- Embeds `<Keys as Iterator>::next` (map.rs 900-905): the `Keys` wrapper
holds an `Iter` and projects the key. -/
def Keys.next {K V : Type} (st : Iter K V) : Option (K × Iter K V) :=
  match Iter.next st with
  | none => none
  | some (kv, st') => some (kv.1, st')

/-- Runs a keys iterator to exhaustion (fuelled). -/
def Keys.runF {K V : Type} : Nat → Iter K V → List K
  | 0, _ => []
  | fuel + 1, st =>
    match Keys.next st with
    | none => []
    | some (k, st') => k :: Keys.runF fuel st'

/-- The full yield sequence of a keys iterator. -/
def Keys.run {K V : Type} (st : Iter K V) : List K :=
  Keys.runF st.iter.size st

/-- Embeds `<Values as Iterator>::next` (map.rs 950-955). -/
def Values.next {K V : Type} (st : Iter K V) : Option (V × Iter K V) :=
  match Iter.next st with
  | none => none
  | some (kv, st') => some (kv.2, st')

/-- Runs a values iterator to exhaustion (fuelled). -/
def Values.runF {K V : Type} : Nat → Iter K V → List V
  | 0, _ => []
  | fuel + 1, st =>
    match Values.next st with
    | none => []
    | some (v, st') => v :: Values.runF fuel st'

/-- The full yield sequence of a values iterator. -/
def Values.run {K V : Type} (st : Iter K V) : List V :=
  Values.runF st.iter.size st

/-- Embeds `PrefixTreeMap::prefix_iter` (map.rs 161-173): searches the
prefix path and iterates the found subtree, or yields the canonical empty
iterator state when the path is absent. -/
def PrefixTreeMap.prefix_iter {K V : Type} (m : PrefixTreeMap K V) (p : List Nat) :
    NodeIterS K V :=
  match m.root.search p with
  | none => .mk none [] none
  | some n => n.iterS

/-- Embeds `PrefixTreeMap::into_prefix_iter` (map.rs 144-156): `search_mut`
then `mem::take(node).into_iter()`; the resulting iterator walks exactly the
found subtree, so its observable state coincides with `prefix_iter`. -/
def PrefixTreeMap.into_prefix_iter {K V : Type} (m : PrefixTreeMap K V) (p : List Nat) :
    NodeIterS K V :=
  match m.root.search p with
  | none => .mk none [] none
  | some n => n.iterS

/-- Modelled from the spec: `PrefixTreeMap::contains_prefix` is called by
`PrefixTreeSet::contains_prefix` (set.rs 42-47) but its definition is not
part of the sources under `src/`; per the spec it is "a pure existence
predicate over whether the prefix's node subtree contains at least one
item", answered from the plain search primitive. -/
def PrefixTreeMap.contains_prefix {K V : Type} (m : PrefixTreeMap K V) (p : List Nat) :
    Bool :=
  match m.root.search p with
  | none => false
  | some n => n.hasItem

/-- Specification-level: the entries of a map, in trie order. -/
def PrefixTreeMap.entries {K V : Type} (m : PrefixTreeMap K V) : List (K × V) :=
  m.root.toList

/-- Structural invariant of claim C9: every children array is strictly
sorted by `key_fragment` (hence duplicate-free), and `len` equals the number
of populated items. -/
def PrefixTreeMap.Inv {K V : Type} (m : PrefixTreeMap K V) : Prop :=
  m.root.sortedB = true ∧ m.len = m.root.count

/-- Full well-formedness: the structural invariant plus key/path coherence
for the byte projection `kb`.  Every map reachable from `new` through the
public API satisfies this. -/
def PrefixTreeMap.WF {K V : Type} (kb : K → List Nat) (m : PrefixTreeMap K V) : Prop :=
  m.root.sortedB = true ∧ m.root.pathOkB kb [] = true ∧ m.len = m.root.count

/-- Embeds `pub struct PrefixTreeSet<T> { map: PrefixTreeMap<T, ()> }`
(set.rs 10-13). -/
structure PrefixTreeSet (T : Type) : Type where
  map : PrefixTreeMap T Unit

/-- Embeds `PrefixTreeSet::new` (set.rs 17-19). -/
def PrefixTreeSet.new {T : Type} : PrefixTreeSet T :=
  ⟨PrefixTreeMap.new⟩

/-- Embeds `PrefixTreeSet::contains` (set.rs 32-37). -/
def PrefixTreeSet.contains {T : Type} (s : PrefixTreeSet T) (item : List Nat) : Bool :=
  s.map.contains_key item

/-- Embeds `PrefixTreeSet::contains_prefix` (set.rs 42-47), which forwards
to the map-level predicate. -/
def PrefixTreeSet.contains_prefix {T : Type} (s : PrefixTreeSet T) (key : List Nat) :
    Bool :=
  PrefixTreeMap.contains_prefix s.map key

/-- Embeds `PrefixTreeSet::insert` (set.rs 95-97). -/
def PrefixTreeSet.insert {T : Type} (kb : T → List Nat) (s : PrefixTreeSet T) (key : T) :
    PrefixTreeSet T × Bool :=
  let r := PrefixTreeMap.insert kb s.map key ()
  (⟨r.1⟩, r.2.isNone)

/-- Embeds `PrefixTreeSet::remove` (set.rs 51-56). -/
def PrefixTreeSet.remove {T : Type} (s : PrefixTreeSet T) (key : List Nat) :
    PrefixTreeSet T × Bool :=
  let r := PrefixTreeMap.remove s.map key
  (⟨r.2⟩, r.1.isSome)

/-- Embeds `PrefixTreeSet::compact` (set.rs 86-88). -/
def PrefixTreeSet.compact {T : Type} (s : PrefixTreeSet T) : PrefixTreeSet T :=
  ⟨s.map.compact⟩

mutual
/-- Embeds the `derive(PartialEq, Eq, ...)` on `Node` (map.rs 448-453):
structural field-wise comparison of `item`, `key_fragment` and `children`. -/
def Node.beq {K V : Type} [BEq K] [BEq V] : Node K V → Node K V → Bool
  | .mk it kf cs, .mk it' kf' cs' => it == it' && kf == kf' && Node.beqPile cs cs'

/-- The derived element-wise equality of the two children arrays. -/
def Node.beqPile {K V : Type} [BEq K] [BEq V] : List (Node K V) → List (Node K V) → Bool
  | [], [] => true
  | c :: rest, c' :: rest' => Node.beq c c' && Node.beqPile rest rest'
  | _, _ => false
end

/-- Embeds the `derive(PartialEq, Eq, ...)` on `PrefixTreeMap` (map.rs 9-13):
field-wise comparison of `root` and `len`. -/
def PrefixTreeMap.beq {K V : Type} [BEq K] [BEq V] (m m' : PrefixTreeMap K V) : Bool :=
  Node.beq m.root m'.root && m.len == m'.len

/-- Identity byte projection: a key that is its own byte sequence. -/
def kbId : List Nat → List Nat := fun l => l

/-- Example fixture: the map `{[1,2,3] ↦ 123, [4,5,6] ↦ 456, [4,5,6,7,8,9] ↦ 789}`
(the spec's `abc/def/defghi` scenario with numeric bytes). -/
def sampleMap : PrefixTreeMap (List Nat) Nat :=
  (PrefixTreeMap.insert kbId
    ((PrefixTreeMap.insert kbId
      ((PrefixTreeMap.insert kbId PrefixTreeMap.new [1, 2, 3] 123).1)
      [4, 5, 6] 456).1)
    [4, 5, 6, 7, 8, 9] 789).1

/-- Example fixture: a set with keys `[1,2]` and `[4]`. -/
def sampleSet : PrefixTreeSet (List Nat) :=
  (PrefixTreeSet.insert kbId ((PrefixTreeSet.insert kbId PrefixTreeSet.new [1, 2]).1) [4]).1

end Pfx

/-! ## Basic unfolding lemmas and induction principles -/

namespace Pfx

/-- Strong induction over the nested `Node` inductive: prove a property of a
node from the property at all of its children. -/
theorem Node.inductionOn {K V : Type} {motive : Node K V → Prop}
    (step : ∀ (it : Option (K × V)) (kf : Nat) (cs : List (Node K V)),
      (∀ c ∈ cs, motive c) → motive (.mk it kf cs)) :
    ∀ n, motive n
  | .mk it kf cs => step it kf cs (fun c hc => Node.inductionOn step c)
termination_by n => sizeOf n
decreasing_by
  have h1 := List.sizeOf_lt_of_mem hc
  simp only [Node.mk.sizeOf_spec]
  omega

theorem Node.eta {K V : Type} (n : Node K V) :
    Node.mk n.item n.key_fragment n.children = n := by
  cases n; rfl

theorem Node.item_mk {K V : Type} (it : Option (K × V)) (kf : Nat) (cs : List (Node K V)) :
    (Node.mk it kf cs).item = it := rfl

theorem Node.key_fragment_mk {K V : Type} (it : Option (K × V)) (kf : Nat)
    (cs : List (Node K V)) : (Node.mk it kf cs).key_fragment = kf := rfl

theorem Node.children_mk {K V : Type} (it : Option (K × V)) (kf : Nat)
    (cs : List (Node K V)) : (Node.mk it kf cs).children = cs := rfl

theorem Node.toList_mk {K V : Type} (it : Option (K × V)) (kf : Nat) (cs : List (Node K V)) :
    (Node.mk it kf cs).toList = it.toList ++ Node.toListPile cs := rfl

theorem Node.toListPile_nil {K V : Type} : Node.toListPile ([] : List (Node K V)) = [] := rfl

theorem Node.toListPile_cons {K V : Type} (c : Node K V) (rest : List (Node K V)) :
    Node.toListPile (c :: rest) = c.toList ++ Node.toListPile rest := rfl

theorem Node.count_mk {K V : Type} (it : Option (K × V)) (kf : Nat) (cs : List (Node K V)) :
    (Node.mk it kf cs).count = (if it.isSome then 1 else 0) + Node.countPile cs := rfl

theorem Node.countPile_nil {K V : Type} : Node.countPile ([] : List (Node K V)) = 0 := rfl

theorem Node.countPile_cons {K V : Type} (c : Node K V) (rest : List (Node K V)) :
    Node.countPile (c :: rest) = c.count + Node.countPile rest := rfl

theorem Node.sortedB_mk {K V : Type} (it : Option (K × V)) (kf : Nat) (cs : List (Node K V)) :
    (Node.mk it kf cs).sortedB
      = (ascFragsB (cs.map Node.key_fragment) && Node.sortedPileB cs) := rfl

theorem Node.sortedPileB_nil {K V : Type} :
    Node.sortedPileB ([] : List (Node K V)) = true := rfl

theorem Node.sortedPileB_cons {K V : Type} (c : Node K V) (rest : List (Node K V)) :
    Node.sortedPileB (c :: rest) = (c.sortedB && Node.sortedPileB rest) := rfl

theorem Node.sortedPileB_iff {K V : Type} (cs : List (Node K V)) :
    Node.sortedPileB cs = true ↔ ∀ c ∈ cs, c.sortedB = true := by
  induction cs with
  | nil => simp [Node.sortedPileB_nil]
  | cons c rest ih => rw [Node.sortedPileB_cons]; simp [ih]

theorem Node.pathOkB_mk {K V : Type} (kb : K → List Nat) (path : List Nat)
    (it : Option (K × V)) (kf : Nat) (cs : List (Node K V)) :
    Node.pathOkB kb path (Node.mk it kf cs)
      = ((match it with
          | none => true
          | some kv => decide (kb kv.1 = path)) && Node.pathOkPileB kb path cs) := rfl

theorem Node.pathOkPileB_nil {K V : Type} (kb : K → List Nat) (path : List Nat) :
    Node.pathOkPileB kb path ([] : List (Node K V)) = true := rfl

theorem Node.pathOkPileB_cons {K V : Type} (kb : K → List Nat) (path : List Nat)
    (c : Node K V) (rest : List (Node K V)) :
    Node.pathOkPileB kb path (c :: rest)
      = (Node.pathOkB kb (path ++ [c.key_fragment]) c && Node.pathOkPileB kb path rest) := rfl

theorem Node.pathOkPileB_iff {K V : Type} (kb : K → List Nat) (path : List Nat)
    (cs : List (Node K V)) :
    Node.pathOkPileB kb path cs = true
      ↔ ∀ c ∈ cs, Node.pathOkB kb (path ++ [c.key_fragment]) c = true := by
  induction cs with
  | nil => simp [Node.pathOkPileB_nil]
  | cons c rest ih => rw [Node.pathOkPileB_cons]; simp [ih]

theorem Node.hasItem_mk {K V : Type} (it : Option (K × V)) (kf : Nat) (cs : List (Node K V)) :
    (Node.mk it kf cs).hasItem = (it.isSome || Node.hasItemPile cs) := rfl

theorem Node.hasItemPile_nil {K V : Type} :
    Node.hasItemPile ([] : List (Node K V)) = false := rfl

theorem Node.hasItemPile_cons {K V : Type} (c : Node K V) (rest : List (Node K V)) :
    Node.hasItemPile (c :: rest) = (c.hasItem || Node.hasItemPile rest) := rfl

theorem Node.size_mk {K V : Type} (it : Option (K × V)) (kf : Nat) (cs : List (Node K V)) :
    (Node.mk it kf cs).size = 1 + (if it.isSome then 1 else 0) + Node.sizePile cs := rfl

theorem Node.sizePile_nil {K V : Type} : Node.sizePile ([] : List (Node K V)) = 0 := rfl

theorem Node.sizePile_cons {K V : Type} (c : Node K V) (rest : List (Node K V)) :
    Node.sizePile (c :: rest) = 1 + c.size + Node.sizePile rest := rfl

theorem Node.compact_mk {K V : Type} (it : Option (K × V)) (kf : Nat) (cs : List (Node K V)) :
    (Node.mk it kf cs).compact
      = (.mk it kf (Node.compactPile cs).1, (Node.compactPile cs).2 || it.isSome) := rfl

theorem Node.compactPile_nil {K V : Type} :
    Node.compactPile ([] : List (Node K V)) = ([], false) := rfl

theorem Node.compactPile_cons {K V : Type} (c : Node K V) (rest : List (Node K V)) :
    Node.compactPile (c :: rest)
      = (if c.compact.2 then c.compact.1 :: (Node.compactPile rest).1
         else (Node.compactPile rest).1,
         c.compact.2 || (Node.compactPile rest).2) := rfl

theorem Node.size_pos {K V : Type} (n : Node K V) : 0 < n.size := by
  cases n with
  | mk it kf cs => rw [Node.size_mk]; omega

theorem NodeIterS.size_positive {K V : Type} (s : NodeIterS K V) : 0 < s.size := by
  cases s with
  | mk it cs cc => cases cc <;> (rw [NodeIterS.size]; omega)

theorem ascFragsB_iff_chain {l : List Nat} :
    ascFragsB l = true ↔ List.Chain' (· < ·) l := by
  induction l with
  | nil => simp [ascFragsB]
  | cons a rest ih =>
    cases rest with
    | nil => simp [ascFragsB]
    | cons b rest' =>
      rw [ascFragsB]
      simp only [Bool.and_eq_true, decide_eq_true_eq, List.chain'_cons]
      rw [ih]

theorem ascFragsB_iff_pairwise {l : List Nat} :
    ascFragsB l = true ↔ List.Pairwise (· < ·) l := by
  rw [ascFragsB_iff_chain, List.chain'_iff_pairwise]

theorem Node.countPile_eq_length {K V : Type} (cs : List (Node K V))
    (h : ∀ c ∈ cs, c.count = c.toList.length) :
    Node.countPile cs = (Node.toListPile cs).length := by
  induction cs with
  | nil => simp [Node.countPile_nil, Node.toListPile_nil]
  | cons c rest ih =>
    rw [Node.countPile_cons, Node.toListPile_cons]
    rw [h c (by simp), ih (fun c hc => h c (by simp [hc]))]
    simp

theorem Node.count_eq_toList_length {K V : Type} (n : Node K V) :
    n.count = n.toList.length := by
  induction n using Node.inductionOn with
  | step it kf cs ih =>
    rw [Node.count_mk, Node.toList_mk, Node.countPile_eq_length cs ih]
    cases it <;> simp [Option.toList] <;> omega

theorem Node.hasItemPile_iff_ne_nil {K V : Type} (cs : List (Node K V))
    (h : ∀ c ∈ cs, (c.hasItem = true ↔ c.toList ≠ [])) :
    Node.hasItemPile cs = true ↔ Node.toListPile cs ≠ [] := by
  induction cs with
  | nil => simp [Node.hasItemPile_nil, Node.toListPile_nil]
  | cons c rest ih =>
    rw [Node.hasItemPile_cons, Node.toListPile_cons]
    simp only [Bool.or_eq_true]
    rw [h c (by simp), ih (fun c hc => h c (by simp [hc]))]
    simp [List.append_eq_nil]
    tauto

theorem Node.hasItem_iff_toList_ne_nil {K V : Type} (n : Node K V) :
    n.hasItem = true ↔ n.toList ≠ [] := by
  induction n using Node.inductionOn with
  | step it kf cs ih =>
    rw [Node.hasItem_mk, Node.toList_mk]
    simp only [Bool.or_eq_true]
    rw [Node.hasItemPile_iff_ne_nil cs ih]
    cases it <;> simp [Option.toList]

end Pfx

/-! ## Binary search -/

namespace Pfx

theorem pairwise_lt_getD {l : List Nat} (hs : List.Pairwise (· < ·) l) {i j : Nat}
    (hij : i < j) (hj : j < l.length) : l.getD i 0 < l.getD j 0 := by
  rw [List.getD_eq_getElem l 0 (lt_trans hij hj), List.getD_eq_getElem l 0 hj]
  exact List.pairwise_iff_getElem.mp hs i j (lt_trans hij hj) hj hij

theorem bsGo_ok {l : List Nat} {t : Nat} :
    ∀ fuel lo hi i, hi ≤ l.length → bsGo l t fuel lo hi = Except.ok i →
      lo ≤ i ∧ i < hi ∧ l.getD i 0 = t := by
  intro fuel
  induction fuel with
  | zero => intro lo hi i _ h; simp [bsGo] at h
  | succ fuel ih =>
    intro lo hi i hhi h
    rw [bsGo] at h
    by_cases hlt : lo < hi
    · simp only [if_pos hlt] at h
      by_cases h1 : l.getD ((lo + hi) / 2) 0 < t
      · simp only [if_pos h1] at h
        have := ih ((lo + hi) / 2 + 1) hi i hhi h
        omega
      · simp only [if_neg h1] at h
        by_cases h2 : t < l.getD ((lo + hi) / 2) 0
        · simp only [if_pos h2] at h
          have := ih lo ((lo + hi) / 2) i (by omega) h
          omega
        · simp only [if_neg h2] at h
          cases h
          refine ⟨by omega, by omega, by omega⟩
    · simp [if_neg hlt] at h
  
theorem bsGo_err_le {l : List Nat} {t : Nat} :
    ∀ fuel lo hi i, lo ≤ hi → bsGo l t fuel lo hi = Except.error i →
      lo ≤ i ∧ i ≤ hi := by
  intro fuel
  induction fuel with
  | zero => intro lo hi i hlo h; rw [bsGo] at h; cases h; omega
  | succ fuel ih =>
    intro lo hi i hlo h
    rw [bsGo] at h
    by_cases hlt : lo < hi
    · simp only [if_pos hlt] at h
      by_cases h1 : l.getD ((lo + hi) / 2) 0 < t
      · simp only [if_pos h1] at h
        have := ih ((lo + hi) / 2 + 1) hi i (by omega) h
        omega
      · simp only [if_neg h1] at h
        by_cases h2 : t < l.getD ((lo + hi) / 2) 0
        · simp only [if_pos h2] at h
          have := ih lo ((lo + hi) / 2) i (by omega) h
          omega
        · simp only [if_neg h2] at h; cases h
    · simp only [if_neg hlt] at h; cases h; omega

theorem bsGo_error_split {l : List Nat} {t : Nat} (hs : List.Pairwise (· < ·) l) :
    ∀ fuel lo hi i, hi ≤ l.length → hi - lo ≤ fuel → lo ≤ hi →
      (∀ j, j < lo → l.getD j 0 < t) →
      (∀ j, hi ≤ j → j < l.length → t < l.getD j 0) →
      bsGo l t fuel lo hi = Except.error i →
      (∀ j, j < i → l.getD j 0 < t) ∧ (∀ j, i ≤ j → j < l.length → t < l.getD j 0) := by
  intro fuel
  induction fuel with
  | zero =>
    intro lo hi i hhi hfuel hlo hlow hhigh h
    rw [bsGo] at h; cases h
    have : lo = hi := by omega
    subst this
    exact ⟨hlow, hhigh⟩
  | succ fuel ih =>
    intro lo hi i hhi hfuel hlo hlow hhigh h
    rw [bsGo] at h
    by_cases hlt : lo < hi
    · simp only [if_pos hlt] at h
      set mid := (lo + hi) / 2 with hmid
      by_cases h1 : l.getD mid 0 < t
      · simp only [if_pos h1] at h
        refine ih (mid + 1) hi i hhi (by omega) (by omega) ?_ hhigh h
        intro j hj
        rcases Nat.lt_or_ge j lo with hc | hc
        · exact hlow j hc
        · rcases Nat.eq_or_lt_of_le (Nat.le_of_lt_succ hj) with he | hl
          · exact he ▸ h1
          · exact lt_trans (pairwise_lt_getD hs hl (by omega)) h1
      · simp only [if_neg h1] at h
        by_cases h2 : t < l.getD mid 0
        · simp only [if_pos h2] at h
          refine ih lo mid i (by omega) (by omega) (by omega) hlow ?_ h
          intro j hj hjl
          rcases Nat.eq_or_lt_of_le hj with he | hl
          · exact he ▸ h2
          · exact lt_trans h2 (pairwise_lt_getD hs hl hjl)
        · simp only [if_neg h2] at h; cases h
    · simp only [if_neg hlt] at h; cases h
      have : lo = hi := by omega
      subst this
      exact ⟨hlow, hhigh⟩

theorem binarySearch_ok {l : List Nat} {t : Nat} {i : Nat}
    (h : binarySearch l t = Except.ok i) : i < l.length ∧ l.getD i 0 = t := by
  have := bsGo_ok l.length 0 l.length i (le_refl _) h
  exact ⟨this.2.1, this.2.2⟩

theorem binarySearch_err_le {l : List Nat} {t : Nat} {i : Nat}
    (h : binarySearch l t = Except.error i) : i ≤ l.length :=
  (bsGo_err_le l.length 0 l.length i (Nat.zero_le _) h).2

theorem binarySearch_error_split {l : List Nat} {t : Nat} {i : Nat}
    (hs : List.Pairwise (· < ·) l) (h : binarySearch l t = Except.error i) :
    (∀ j, j < i → l.getD j 0 < t) ∧ (∀ j, i ≤ j → j < l.length → t < l.getD j 0) :=
  bsGo_error_split hs l.length 0 l.length i (le_refl _) (by omega) (Nat.zero_le _)
    (by omega) (by omega) h

theorem binarySearch_error_not_mem {l : List Nat} {t : Nat} {i : Nat}
    (hs : List.Pairwise (· < ·) l) (h : binarySearch l t = Except.error i) : t ∉ l := by
  intro hmem
  obtain ⟨j, hj, hgj⟩ := List.mem_iff_getElem.mp hmem
  obtain ⟨hlow, hhigh⟩ := binarySearch_error_split hs h
  rcases Nat.lt_or_ge j i with hc | hc
  · have := hlow j hc
    rw [List.getD_eq_getElem l 0 hj, hgj] at this
    omega
  · have := hhigh j hc hj
    rw [List.getD_eq_getElem l 0 hj, hgj] at this
    omega

theorem binarySearch_mem_ok {l : List Nat} {t : Nat}
    (hs : List.Pairwise (· < ·) l) (hmem : t ∈ l) :
    ∃ i, binarySearch l t = Except.ok i := by
  cases h : binarySearch l t with
  | ok i => exact ⟨i, rfl⟩
  | error i => exact absurd hmem (binarySearch_error_not_mem hs h)

theorem insertIdx_eq_take_cons_drop {α : Type} (a : α) :
    ∀ (i : Nat) (l : List α), i ≤ l.length →
      l.insertIdx i a = l.take i ++ a :: l.drop i := by
  intro i
  induction i with
  | zero => intro l _; simp
  | succ i ih =>
    intro l hl
    cases l with
    | nil => simp at hl
    | cons x xs =>
      rw [List.insertIdx_succ_cons, ih xs (by simpa using hl)]
      simp

theorem insertIdx_sorted {l : List Nat} {t : Nat} {i : Nat}
    (hs : List.Pairwise (· < ·) l) (hil : i ≤ l.length)
    (hlow : ∀ j, j < i → l.getD j 0 < t)
    (hhigh : ∀ j, i ≤ j → j < l.length → t < l.getD j 0) :
    List.Pairwise (· < ·) (l.insertIdx i t) := by
  rw [insertIdx_eq_take_cons_drop t i l hil]
  have htake : ∀ x ∈ l.take i, x < t := by
    intro x hx
    obtain ⟨j, hj, hgj⟩ := List.mem_iff_getElem.mp hx
    have hji : j < i := by simp at hj; omega
    have hjlen : j < l.length := by simp at hj; omega
    have := hlow j hji
    rw [List.getD_eq_getElem l 0 hjlen] at this
    rw [← hgj, List.getElem_take]
    exact this
  have hdrop : ∀ y ∈ l.drop i, t < y := by
    intro y hy
    obtain ⟨j, hj, hgj⟩ := List.mem_iff_getElem.mp hy
    have hjlen : i + j < l.length := by simp at hj; omega
    have := hhigh (i + j) (by omega) hjlen
    rw [List.getD_eq_getElem l 0 hjlen] at this
    rw [← hgj, List.getElem_drop]
    exact this
  rw [List.pairwise_append]
  refine ⟨hs.sublist (List.take_sublist i l), ?_, ?_⟩
  · rw [List.pairwise_cons]
    exact ⟨hdrop, hs.sublist (List.drop_sublist i l)⟩
  · intro x hx y hy
    have hxt := htake x hx
    rcases List.mem_cons.mp hy with he | hd
    · omega
    · exact lt_trans hxt (hdrop y hd)

end Pfx

/-! ## Sorted children: binary search finds the unique labelled child -/

namespace Pfx

theorem find?_eq_some_of_unique {α : Type} {p : α → Bool} {l : List α} {a : α}
    (ha : a ∈ l) (hpa : p a = true) (huniq : ∀ b ∈ l, p b = true → b = a) :
    l.find? p = some a := by
  induction l with
  | nil => simp at ha
  | cons c rest ih =>
    by_cases hc : p c = true
    · rw [List.find?_cons_of_pos _ hc, huniq c (by simp) hc]
    · rw [List.find?_cons_of_neg _ hc]
      rcases List.mem_cons.mp ha with he | ht
      · exact absurd (he ▸ hpa) hc
      · exact ih ht (fun b hb hpb => huniq b (by simp [hb]) hpb)

theorem eq_of_key_eq {α : Type} {key : α → Nat} {l : List α}
    (hnd : List.Pairwise (fun x y => key x ≠ key y) l) {a b : α}
    (ha : a ∈ l) (hb : b ∈ l) (hk : key a = key b) : a = b := by
  induction l with
  | nil => simp at ha
  | cons c rest ih =>
    rw [List.pairwise_cons] at hnd
    rcases List.mem_cons.mp ha with hea | hta <;> rcases List.mem_cons.mp hb with heb | htb
    · rw [hea, heb]
    · exact absurd (hea ▸ hk) (hnd.1 b htb)
    · exact absurd (heb ▸ hk).symm (hnd.1 a hta)
    · exact ih hnd.2 hta htb

theorem Node.sortedB_frags {K V : Type} {n : Node K V} (hs : n.sortedB = true) :
    List.Pairwise (· < ·) (n.children.map Node.key_fragment) := by
  cases n with
  | mk it kf cs =>
    rw [Node.sortedB_mk, Bool.and_eq_true] at hs
    exact ascFragsB_iff_pairwise.mp hs.1

theorem Node.sortedB_children {K V : Type} {n : Node K V} (hs : n.sortedB = true) :
    ∀ c ∈ n.children, c.sortedB = true := by
  cases n with
  | mk it kf cs =>
    rw [Node.sortedB_mk, Bool.and_eq_true] at hs
    exact (Node.sortedPileB_iff cs).mp hs.2

theorem Node.kf_nodup {K V : Type} {n : Node K V} (hs : n.sortedB = true) :
    List.Pairwise (fun x y => Node.key_fragment x ≠ Node.key_fragment y) n.children := by
  have := Node.sortedB_frags hs
  rw [List.pairwise_map] at this
  exact this.imp (fun h => Nat.ne_of_lt h)

theorem Node.frags_getD {K V : Type} (n : Node K V) {i : Nat}
    (h : i < n.children.length) (d : Node K V) :
    (n.children.map Node.key_fragment).getD i 0 = (n.children.getD i d).key_fragment := by
  rw [List.getD_eq_getElem _ 0 (by simpa using h), List.getD_eq_getElem _ d h,
    List.getElem_map]

theorem Node.childSearch_ok {K V : Type} {n : Node K V} {b i : Nat}
    (h : n.childSearch b = Except.ok i) :
    i < n.children.length ∧ ∀ d, (n.children.getD i d).key_fragment = b := by
  have := binarySearch_ok h
  rw [List.length_map] at this
  refine ⟨this.1, fun d => ?_⟩
  rw [← Node.frags_getD n this.1 d]
  exact this.2

theorem Node.childSearch_err_not_mem {K V : Type} {n : Node K V} {b i : Nat}
    (hs : n.sortedB = true) (h : n.childSearch b = Except.error i) :
    ∀ c ∈ n.children, c.key_fragment ≠ b := by
  intro c hc he
  exact binarySearch_error_not_mem (Node.sortedB_frags hs) h
    (List.mem_map.mpr ⟨c, hc, he⟩)

theorem Node.childSearch_err_le {K V : Type} {n : Node K V} {b i : Nat}
    (h : n.childSearch b = Except.error i) : i ≤ n.children.length := by
  have := binarySearch_err_le h
  rwa [List.length_map] at this

theorem Node.child?_ok {K V : Type} {n : Node K V} {b i : Nat}
    (hs : n.sortedB = true) (h : n.childSearch b = Except.ok i) :
    n.child? b = some (n.children.getD i n) := by
  obtain ⟨hi, hkf⟩ := Node.childSearch_ok h
  refine find?_eq_some_of_unique ?_ ?_ ?_
  · rw [List.getD_eq_getElem _ _ hi]
    exact List.getElem_mem hi
  · simp only [beq_iff_eq]
    exact hkf n
  · intro c hc hpc
    rw [beq_iff_eq] at hpc
    refine eq_of_key_eq (Node.kf_nodup hs) hc ?_ (by rw [hpc, hkf n])
    rw [List.getD_eq_getElem _ _ hi]
    exact List.getElem_mem hi

theorem Node.child?_err {K V : Type} {n : Node K V} {b i : Nat}
    (hs : n.sortedB = true) (h : n.childSearch b = Except.error i) :
    n.child? b = none := by
  rw [Node.child?, List.find?_eq_none]
  intro c hc hpc
  rw [beq_iff_eq] at hpc
  exact Node.childSearch_err_not_mem hs h c hc hpc

theorem Node.child?_mem {K V : Type} {n : Node K V} {b : Nat} {c : Node K V}
    (h : n.child? b = some c) : c ∈ n.children :=
  List.mem_of_find?_eq_some h

theorem Node.child?_kf {K V : Type} {n : Node K V} {b : Nat} {c : Node K V}
    (h : n.child? b = some c) : c.key_fragment = b := by
  have := List.find?_some h
  rwa [beq_iff_eq] at this

theorem Node.search_nil {K V : Type} (n : Node K V) : n.search [] = some n := rfl

theorem Node.search_cons {K V : Type} (n : Node K V) (b : Nat) (bs : List Nat)
    (hs : n.sortedB = true) :
    n.search (b :: bs)
      = match n.child? b with
        | none => none
        | some c => c.search bs := by
  rw [Node.search]
  cases h : n.childSearch b with
  | ok i => rw [Node.child?_ok hs h]
  | error i => rw [Node.child?_err hs h]

theorem Node.slotAt_nil {K V : Type} (n : Node K V) : n.slotAt [] = n.item := rfl

theorem Node.slotAt_cons {K V : Type} (n : Node K V) (b : Nat) (bs : List Nat)
    (hs : n.sortedB = true) :
    n.slotAt (b :: bs)
      = match n.child? b with
        | none => none
        | some c => c.slotAt bs := by
  rw [Node.slotAt, Node.search_cons n b bs hs]
  cases n.child? b with
  | none => rfl
  | some c => rfl

/-- The map-level observers are the slot observers. -/
theorem PrefixTreeMap.contains_key_eq_slot {K V : Type} (m : PrefixTreeMap K V)
    (key : List Nat) : m.contains_key key = (m.root.slotAt key).isSome := by
  rw [PrefixTreeMap.contains_key, Node.slotAt]
  cases m.root.search key with
  | none => rfl
  | some n => rfl

theorem PrefixTreeMap.get_eq_slot {K V : Type} (m : PrefixTreeMap K V) (key : List Nat) :
    m.get key = (m.root.slotAt key).map (fun kv => kv.2) := by
  rw [PrefixTreeMap.get, Node.slotAt]
  cases m.root.search key with
  | none => rfl
  | some n => rfl

theorem PrefixTreeMap.get_entry_eq_slot {K V : Type} (m : PrefixTreeMap K V)
    (key : List Nat) : m.get_entry key = m.root.slotAt key := rfl

end Pfx

/-! ## Lemmas about `updateAt` (search_or_insert plus slot mutation) -/

namespace Pfx

theorem set_getD_self {α : Type} :
    ∀ (l : List α) (i : Nat) (d : α), i < l.length → l.set i (l.getD i d) = l := by
  intro l
  induction l with
  | nil => intro i d h; simp at h
  | cons c rest ih =>
    intro i d h
    cases i with
    | zero => rfl
    | succ i =>
      rw [List.getD_cons_succ, List.set_cons_succ, ih i d (by simpa using h)]

theorem find?_set_of_neg {α : Type} {p : α → Bool} :
    ∀ (l : List α) (i : Nat) (a : α), i < l.length →
      (∀ h : i < l.length, p l[i] = false) → p a = false →
      (l.set i a).find? p = l.find? p := by
  intro l
  induction l with
  | nil => intro i a h; simp at h
  | cons c rest ih =>
    intro i a hi hold hnew
    cases i with
    | zero =>
      rw [List.set_cons_zero]
      rw [List.find?_cons_of_neg _ (by simp [hnew]),
        List.find?_cons_of_neg _ (by have := hold hi; simpa using this)]
    | succ i =>
      rw [List.set_cons_succ]
      by_cases hc : p c = true
      · rw [List.find?_cons_of_pos _ hc, List.find?_cons_of_pos _ hc]
      · rw [List.find?_cons_of_neg _ (by simpa using hc), List.find?_cons_of_neg _ (by simpa using hc)]
        exact ih i a (by simpa using hi) (fun h => by simpa using hold hi) hnew

theorem find?_middle_of_neg {α : Type} {p : α → Bool} (a : α) (ha : p a = false) :
    ∀ (l₁ l₂ : List α), (l₁ ++ a :: l₂).find? p = (l₁ ++ l₂).find? p := by
  intro l₁
  induction l₁ with
  | nil =>
    intro l₂
    rw [List.nil_append, List.nil_append, List.find?_cons_of_neg _ (by simp [ha])]
  | cons c rest ih =>
    intro l₂
    rw [List.cons_append, List.cons_append]
    by_cases hc : p c = true
    · rw [List.find?_cons_of_pos _ hc, List.find?_cons_of_pos _ hc]
    · rw [List.find?_cons_of_neg _ (by simpa using hc), List.find?_cons_of_neg _ (by simpa using hc)]
      exact ih l₂

theorem Node.updateAt_nil {K V α : Type} (f : Option (K × V) → Option (K × V) × α)
    (n : Node K V) :
    n.updateAt f [] = (.mk (f n.item).1 n.key_fragment n.children, (f n.item).2) := rfl

theorem Node.updateAt_cons_ok {K V α : Type} (f : Option (K × V) → Option (K × V) × α)
    {n : Node K V} {b i : Nat} (bs : List Nat) (h : n.childSearch b = Except.ok i) :
    n.updateAt f (b :: bs)
      = (.mk n.item n.key_fragment
          (n.children.set i ((n.children.getD i n).updateAt f bs).1),
         ((n.children.getD i n).updateAt f bs).2) := by
  rw [Node.updateAt, h]

theorem Node.updateAt_cons_err {K V α : Type} (f : Option (K × V) → Option (K × V) × α)
    {n : Node K V} {b i : Nat} (bs : List Nat) (h : n.childSearch b = Except.error i) :
    n.updateAt f (b :: bs)
      = (.mk n.item n.key_fragment
          (n.children.insertIdx i ((Node.with_key_fragment b).updateAt f bs).1),
         ((Node.with_key_fragment b).updateAt f bs).2) := by
  rw [Node.updateAt, h]

theorem Node.updateAt_kf {K V α : Type} (f : Option (K × V) → Option (K × V) × α)
    (n : Node K V) (p : List Nat) :
    (n.updateAt f p).1.key_fragment = n.key_fragment := by
  cases p with
  | nil => rw [Node.updateAt_nil]; rfl
  | cons b bs =>
    cases h : n.childSearch b with
    | ok i => rw [Node.updateAt_cons_ok f bs h]; rfl
    | error i => rw [Node.updateAt_cons_err f bs h]; rfl

theorem Node.updateAt_item_cons {K V α : Type} (f : Option (K × V) → Option (K × V) × α)
    (n : Node K V) (b : Nat) (bs : List Nat) :
    (n.updateAt f (b :: bs)).1.item = n.item := by
  cases h : n.childSearch b with
  | ok i => rw [Node.updateAt_cons_ok f bs h]; rfl
  | error i => rw [Node.updateAt_cons_err f bs h]; rfl

theorem Node.with_key_fragment_sortedB {K V : Type} (b : Nat) :
    (Node.with_key_fragment b : Node K V).sortedB = true := rfl

theorem Node.with_key_fragment_slotAt {K V : Type} (b : Nat) (q : List Nat) :
    (Node.with_key_fragment b : Node K V).slotAt q = none := by
  cases q <;> rfl

theorem Node.with_key_fragment_count {K V : Type} (b : Nat) :
    (Node.with_key_fragment b : Node K V).count = 0 := rfl

/-- The node the entry protocol's slot mutation is applied to: the existing
labelled child, or the freshly created one. -/
theorem Node.updateAt_child? {K V α : Type} (f : Option (K × V) → Option (K × V) × α)
    {n : Node K V} (hs : n.sortedB = true) (b : Nat) (bs : List Nat) (x : Nat) :
    (n.updateAt f (b :: bs)).1.child? x
      = if x = b
        then some (((match n.child? b with
                     | some c => c
                     | none => Node.with_key_fragment b)).updateAt f bs).1
        else n.child? x := by
  cases h : n.childSearch b with
  | ok i =>
    obtain ⟨hi, hkf⟩ := Node.childSearch_ok h
    rw [Node.updateAt_cons_ok f bs h, Node.child?_ok hs h]
    rw [Node.child?, Node.children_mk]
    by_cases hx : x = b
    · subst hx
      rw [if_pos rfl]
      refine find?_eq_some_of_unique ?_ ?_ ?_
      · exact List.mem_iff_getElem.mpr
          ⟨i, by rw [List.length_set]; exact hi, List.getElem_set_self _⟩
      · simp only [beq_iff_eq]
        rw [Node.updateAt_kf]
        exact hkf n
      · intro c'' hc'' hpc
        rw [beq_iff_eq] at hpc
        obtain ⟨j, hjs, hgj⟩ := List.mem_iff_getElem.mp hc''
        have hj : j < n.children.length := by rwa [List.length_set] at hjs
        by_cases hji : j = i
        · subst hji
          rw [List.getElem_set_self _] at hgj
          exact hgj.symm
        · have hset : (n.children.set i ((n.children.getD i n).updateAt f bs).1)[j] = n.children[j] :=
            List.getElem_set_ne (fun he => hji he.symm) hjs
          rw [hset] at hgj
          exfalso
          have hnd := Node.kf_nodup hs
          have hpg := List.pairwise_iff_getElem.mp hnd
          have hkfj : (n.children[j]).key_fragment = x := by rw [hgj]; exact hpc
          have hkfi : (n.children[i]).key_fragment = x := by
            have := hkf n
            rwa [List.getD_eq_getElem _ _ hi] at this
          rcases Nat.lt_or_ge j i with hc | hc
          · exact (hpg j i hj hi hc) (hkfj.trans hkfi.symm)
          · exact (hpg i j hi hj (by omega)) (hkfi.trans hkfj.symm)
    · rw [if_neg hx]
      rw [Node.child?]
      refine find?_set_of_neg _ i _ hi (fun h' => ?_) ?_
      · simp only [beq_eq_false_iff_ne, ne_eq]
        have := hkf n
        rw [List.getD_eq_getElem _ _ hi] at this
        rw [this]
        exact fun he => hx he.symm
      · simp only [beq_eq_false_iff_ne, ne_eq]
        rw [Node.updateAt_kf]
        have := hkf n
        rw [List.getD_eq_getElem _ _ hi] at this
        have h2 : (n.children.getD i n).key_fragment = b := hkf n
        rw [h2]
        exact fun he => hx he.symm
  | error i =>
    have hle := Node.childSearch_err_le h
    have hnb := Node.childSearch_err_not_mem hs h
    rw [Node.updateAt_cons_err f bs h, Node.child?_err hs h]
    rw [Node.child?, Node.children_mk]
    by_cases hx : x = b
    · subst hx
      rw [if_pos rfl]
      refine find?_eq_some_of_unique ?_ ?_ ?_
      · exact (List.mem_insertIdx hle).mpr (Or.inl rfl)
      · simp only [beq_iff_eq]
        rw [Node.updateAt_kf]
        rfl
      · intro c'' hc'' hpc
        rw [beq_iff_eq] at hpc
        rcases (List.mem_insertIdx hle).mp hc'' with he | hm
        · exact he
        · exact absurd hpc (hnb c'' hm)
    · rw [if_neg hx]
      rw [Node.child?]
      rw [insertIdx_eq_take_cons_drop _ i _ hle]
      rw [find?_middle_of_neg _ ?_ , List.take_append_drop]
      simp only [beq_eq_false_iff_ne, ne_eq]
      rw [Node.updateAt_kf]
      exact fun he => hx he.symm

end Pfx

namespace Pfx

theorem map_insertIdx {α β : Type} (g : α → β) :
    ∀ (i : Nat) (l : List α) (a : α),
      (l.insertIdx i a).map g = (l.map g).insertIdx i (g a) := by
  intro i
  induction i with
  | zero => intro l a; simp
  | succ i ih =>
    intro l a
    cases l with
    | nil => simp
    | cons x xs => rw [List.insertIdx_succ_cons]; simp [ih]

theorem Node.sortedB_mk_children {K V : Type} (it : Option (K × V)) (kf : Nat)
    (n : Node K V) : (Node.mk it kf n.children).sortedB = n.sortedB := by
  cases n; rfl

theorem Node.child?_mk {K V : Type} (it : Option (K × V)) (kf : Nat) (n : Node K V)
    (x : Nat) : (Node.mk it kf n.children).child? x = n.child? x := by
  cases n; rfl

theorem Node.updateAt_frags_ok {K V α : Type} (f : Option (K × V) → Option (K × V) × α)
    {n : Node K V} {b i : Nat} (bs : List Nat) (h : n.childSearch b = Except.ok i) :
    (n.children.set i ((n.children.getD i n).updateAt f bs).1).map Node.key_fragment
      = n.children.map Node.key_fragment := by
  obtain ⟨hi, hkf⟩ := Node.childSearch_ok h
  rw [List.map_set, Node.updateAt_kf]
  rw [← Node.frags_getD n hi n]
  exact set_getD_self _ i 0 (by simpa using hi)

theorem Node.updateAt_sortedB {K V α : Type} (f : Option (K × V) → Option (K × V) × α) :
    ∀ (p : List Nat) (n : Node K V), n.sortedB = true →
      (n.updateAt f p).1.sortedB = true := by
  intro p
  induction p with
  | nil =>
    intro n hs
    rw [Node.updateAt_nil]
    rw [← Node.eta n] at hs
    exact hs
  | cons b bs ih =>
    intro n hs
    cases h : n.childSearch b with
    | ok i =>
      obtain ⟨hi, hkf⟩ := Node.childSearch_ok h
      rw [Node.updateAt_cons_ok f bs h, Node.sortedB_mk, Bool.and_eq_true]
      constructor
      · rw [Node.updateAt_frags_ok f bs h]
        exact ascFragsB_iff_pairwise.mpr (Node.sortedB_frags hs)
      · rw [Node.sortedPileB_iff]
        intro c hc
        rcases List.mem_or_eq_of_mem_set hc with hm | he
        · exact Node.sortedB_children hs c hm
        · subst he
          refine ih _ ?_
          refine Node.sortedB_children hs _ ?_
          rw [List.getD_eq_getElem _ _ hi]
          exact List.getElem_mem hi
    | error i =>
      have hle := Node.childSearch_err_le h
      rw [Node.updateAt_cons_err f bs h, Node.sortedB_mk, Bool.and_eq_true]
      have hfr : (n.children.insertIdx i ((Node.with_key_fragment b).updateAt f bs).1).map
            Node.key_fragment
          = (n.children.map Node.key_fragment).insertIdx i b := by
        rw [map_insertIdx, Node.updateAt_kf]
        rfl
      constructor
      · rw [hfr]
        obtain ⟨hlow, hhigh⟩ := binarySearch_error_split (Node.sortedB_frags hs) h
        exact ascFragsB_iff_pairwise.mpr
          (insertIdx_sorted (Node.sortedB_frags hs) (by simpa using hle) hlow hhigh)
      · rw [Node.sortedPileB_iff]
        intro c hc
        rcases (List.mem_insertIdx hle).mp hc with he | hm
        · subst he
          exact ih _ (Node.with_key_fragment_sortedB b)
        · exact Node.sortedB_children hs c hm

theorem Node.updateAt_snd {K V α : Type} (f : Option (K × V) → Option (K × V) × α) :
    ∀ (p : List Nat) (n : Node K V), n.sortedB = true →
      (n.updateAt f p).2 = (f (n.slotAt p)).2 := by
  intro p
  induction p with
  | nil => intro n hs; rw [Node.updateAt_nil, Node.slotAt_nil]
  | cons b bs ih =>
    intro n hs
    rw [Node.slotAt_cons n b bs hs]
    cases h : n.childSearch b with
    | ok i =>
      rw [Node.updateAt_cons_ok f bs h, Node.child?_ok hs h]
      refine (ih _ ?_)
      obtain ⟨hi, _⟩ := Node.childSearch_ok h
      refine Node.sortedB_children hs _ ?_
      rw [List.getD_eq_getElem _ _ hi]
      exact List.getElem_mem hi
    | error i =>
      rw [Node.updateAt_cons_err f bs h, Node.child?_err hs h]
      rw [ih _ (Node.with_key_fragment_sortedB b), Node.with_key_fragment_slotAt]

theorem Node.updateAt_slotAt_self {K V α : Type} (f : Option (K × V) → Option (K × V) × α) :
    ∀ (p : List Nat) (n : Node K V), n.sortedB = true →
      (n.updateAt f p).1.slotAt p = (f (n.slotAt p)).1 := by
  intro p
  induction p with
  | nil => intro n hs; rw [Node.updateAt_nil, Node.slotAt_nil, Node.slotAt_nil]; rfl
  | cons b bs ih =>
    intro n hs
    have hs' := Node.updateAt_sortedB f (b :: bs) n hs
    rw [Node.slotAt_cons _ b bs hs', Node.updateAt_child? f hs b bs b, if_pos rfl]
    rw [Node.slotAt_cons n b bs hs]
    cases hc : n.child? b with
    | some c =>
      refine ih _ ?_
      exact Node.sortedB_children hs c (Node.child?_mem hc)
    | none =>
      show ((Node.with_key_fragment b).updateAt f bs).1.slotAt bs = (f none).1
      rw [ih _ (Node.with_key_fragment_sortedB b), Node.with_key_fragment_slotAt]

theorem Node.updateAt_slotAt_ne {K V α : Type} (f : Option (K × V) → Option (K × V) × α) :
    ∀ (p : List Nat) (n : Node K V) (q : List Nat), n.sortedB = true → q ≠ p →
      (n.updateAt f p).1.slotAt q = n.slotAt q := by
  intro p
  induction p with
  | nil =>
    intro n q hs hq
    cases q with
    | nil => exact absurd rfl hq
    | cons a qs =>
      rw [Node.updateAt_nil]
      have hs' : (Node.mk (f n.item).1 n.key_fragment n.children).sortedB = true := by
        rw [Node.sortedB_mk_children]; exact hs
      rw [Node.slotAt_cons _ a qs hs', Node.slotAt_cons n a qs hs, Node.child?_mk]
  | cons b bs ih =>
    intro n q hs hq
    have hs' := Node.updateAt_sortedB f (b :: bs) n hs
    cases q with
    | nil =>
      rw [Node.slotAt_nil, Node.slotAt_nil, Node.updateAt_item_cons]
    | cons a qs =>
      rw [Node.slotAt_cons _ a qs hs', Node.slotAt_cons n a qs hs]
      rw [Node.updateAt_child? f hs b bs a]
      by_cases hab : a = b
      · subst hab
        rw [if_pos rfl]
        have hqs : qs ≠ bs := fun he => hq (by rw [he])
        cases hc : n.child? a with
        | some c =>
          exact ih c qs (Node.sortedB_children hs c (Node.child?_mem hc)) hqs
        | none =>
          show ((Node.with_key_fragment a).updateAt f bs).1.slotAt qs = none
          rw [ih _ qs (Node.with_key_fragment_sortedB a) hqs,
            Node.with_key_fragment_slotAt]
      · rw [if_neg hab]

theorem Node.countPile_append {K V : Type} (l₁ l₂ : List (Node K V)) :
    Node.countPile (l₁ ++ l₂) = Node.countPile l₁ + Node.countPile l₂ := by
  induction l₁ with
  | nil => simp [Node.countPile_nil]
  | cons c rest ih => rw [List.cons_append, Node.countPile_cons, Node.countPile_cons, ih]; omega

theorem Node.countPile_set {K V : Type} :
    ∀ (cs : List (Node K V)) (i : Nat) (c' d : Node K V), i < cs.length →
      Node.countPile (cs.set i c') + (cs.getD i d).count
        = Node.countPile cs + c'.count := by
  intro cs
  induction cs with
  | nil => intro i _ _ h; simp at h
  | cons c rest ih =>
    intro i c' d hi
    cases i with
    | zero =>
      rw [List.set_cons_zero, Node.countPile_cons, Node.countPile_cons, List.getD_cons_zero]
      omega
    | succ i =>
      rw [List.set_cons_succ, Node.countPile_cons, Node.countPile_cons, List.getD_cons_succ]
      have := ih i c' d (by simpa using hi)
      omega

theorem Node.countPile_insertIdx {K V : Type} (cs : List (Node K V)) (i : Nat)
    (c' : Node K V) (hi : i ≤ cs.length) :
    Node.countPile (cs.insertIdx i c') = Node.countPile cs + c'.count := by
  rw [insertIdx_eq_take_cons_drop c' i cs hi, Node.countPile_append, Node.countPile_cons]
  conv_rhs => rw [← List.take_append_drop i cs]
  rw [Node.countPile_append]
  omega

theorem Node.count_eq {K V : Type} (n : Node K V) :
    n.count = (if n.item.isSome then 1 else 0) + Node.countPile n.children := by
  cases n; rfl

theorem Node.updateAt_count {K V α : Type} (f : Option (K × V) → Option (K × V) × α) :
    ∀ (p : List Nat) (n : Node K V), n.sortedB = true →
      (n.updateAt f p).1.count + (if (n.slotAt p).isSome then 1 else 0)
        = n.count + (if (f (n.slotAt p)).1.isSome then 1 else 0) := by
  intro p
  induction p with
  | nil =>
    intro n hs
    rw [Node.updateAt_nil, Node.slotAt_nil, Node.count_mk, Node.count_eq n]
    omega
  | cons b bs ih =>
    intro n hs
    cases h : n.childSearch b with
    | ok i =>
      obtain ⟨hi, hkf⟩ := Node.childSearch_ok h
      have hcs : (n.children.getD i n).sortedB = true := by
        refine Node.sortedB_children hs _ ?_
        rw [List.getD_eq_getElem _ _ hi]
        exact List.getElem_mem hi
      have hsl : n.slotAt (b :: bs) = (n.children.getD i n).slotAt bs := by
        rw [Node.slotAt_cons n b bs hs, Node.child?_ok hs h]
      rw [hsl, Node.updateAt_cons_ok f bs h, Node.count_mk]
      have hset := Node.countPile_set n.children i
        ((n.children.getD i n).updateAt f bs).1 n hi
      have hihc := ih (n.children.getD i n) hcs
      rw [Node.count_eq n]
      omega
    | error i =>
      have hle := Node.childSearch_err_le h
      have hsl : n.slotAt (b :: bs) = none := by
        rw [Node.slotAt_cons n b bs hs, Node.child?_err hs h]
      rw [hsl, Node.updateAt_cons_err f bs h, Node.count_mk,
        Node.countPile_insertIdx _ i _ hle]
      have hihc := ih (Node.with_key_fragment b) (Node.with_key_fragment_sortedB b)
      rw [Node.with_key_fragment_slotAt, Node.with_key_fragment_count] at hihc
      rw [Node.count_eq n]
      simp only [Option.isSome_none, Bool.false_eq_true, if_false] at hihc ⊢
      omega

theorem Node.with_key_fragment_pathOkB {K V : Type} (kb : K → List Nat) (b : Nat)
    (path : List Nat) : Node.pathOkB kb path (Node.with_key_fragment b : Node K V) = true := rfl

theorem Node.updateAt_pathOkB {K V α : Type} (kb : K → List Nat)
    (f : Option (K × V) → Option (K × V) × α) :
    ∀ (p path : List Nat) (n : Node K V), n.sortedB = true →
      Node.pathOkB kb path n = true →
      (∀ (s : Option (K × V)), (∀ kv₀, s = some kv₀ → kb kv₀.1 = path ++ p) →
        ∀ kv, (f s).1 = some kv → kb kv.1 = path ++ p) →
      Node.pathOkB kb path (n.updateAt f p).1 = true := by
  intro p
  induction p with
  | nil =>
    intro path n hs hp hf
    rw [Node.updateAt_nil]
    rw [← Node.eta n, Node.pathOkB_mk, Bool.and_eq_true] at hp
    rw [Node.pathOkB_mk, Bool.and_eq_true]
    refine ⟨?_, hp.2⟩
    cases hfi : (f n.item).1 with
    | none => rfl
    | some kv =>
      simp only [decide_eq_true_eq]
      have := hf n.item ?_ kv hfi
      · rwa [List.append_nil] at this
      · intro kv₀ he
        have hit := hp.1
        rw [he] at hit
        simp only [decide_eq_true_eq] at hit
        rw [List.append_nil]
        exact hit
  | cons b bs ih =>
    intro path n hs hp hf
    rw [← Node.eta n, Node.pathOkB_mk, Bool.and_eq_true] at hp
    cases h : n.childSearch b with
    | ok i =>
      obtain ⟨hi, hkf⟩ := Node.childSearch_ok h
      have hmem : n.children.getD i n ∈ n.children := by
        rw [List.getD_eq_getElem _ _ hi]
        exact List.getElem_mem hi
      have hcs : (n.children.getD i n).sortedB = true :=
        Node.sortedB_children hs _ hmem
      rw [Node.updateAt_cons_ok f bs h, Node.pathOkB_mk, Bool.and_eq_true]
      refine ⟨hp.1, ?_⟩
      rw [Node.pathOkPileB_iff]
      intro c hc
      rcases List.mem_or_eq_of_mem_set hc with hm | he
      · exact (Node.pathOkPileB_iff kb path n.children).mp hp.2 c hm
      · subst he
        rw [Node.updateAt_kf, hkf n]
        refine ih (path ++ [b]) _ hcs ?_ ?_
        · have := (Node.pathOkPileB_iff kb path n.children).mp hp.2 _ hmem
          rwa [hkf n] at this
        · intro s hso kv hkv
          rw [List.append_assoc, List.singleton_append]
          exact hf s (fun kv₀ he₀ => by
            have := hso kv₀ he₀
            rwa [List.append_assoc, List.singleton_append] at this) kv hkv
    | error i =>
      have hle := Node.childSearch_err_le h
      rw [Node.updateAt_cons_err f bs h, Node.pathOkB_mk, Bool.and_eq_true]
      refine ⟨hp.1, ?_⟩
      rw [Node.pathOkPileB_iff]
      intro c hc
      rcases (List.mem_insertIdx hle).mp hc with he | hm
      · subst he
        rw [Node.updateAt_kf]
        have hkff : (Node.with_key_fragment b : Node K V).key_fragment = b := rfl
        rw [hkff]
        refine ih (path ++ [b]) _ (Node.with_key_fragment_sortedB b)
          (Node.with_key_fragment_pathOkB kb b _) ?_
        intro s hso kv hkv
        rw [List.append_assoc, List.singleton_append]
        exact hf s (fun kv₀ he₀ => by
          have := hso kv₀ he₀
          rwa [List.append_assoc, List.singleton_append] at this) kv hkv
      · exact (Node.pathOkPileB_iff kb path n.children).mp hp.2 c hm

end Pfx

/-! ## Lemmas about `takeItemAt` (remove_entry's tree effect) -/

namespace Pfx

theorem Node.frags_set_same {K V : Type} {n : Node K V} {i : Nat}
    (hi : i < n.children.length) {c₂ : Node K V}
    (hkfc : c₂.key_fragment = (n.children.getD i n).key_fragment) :
    (n.children.set i c₂).map Node.key_fragment = n.children.map Node.key_fragment := by
  rw [List.map_set, hkfc, ← Node.frags_getD n hi n]
  exact set_getD_self _ i 0 (by simpa using hi)

theorem Node.child?_set_of_ok {K V : Type} {n : Node K V} {b i : Nat}
    (hs : n.sortedB = true) (h : n.childSearch b = Except.ok i) {c₂ : Node K V}
    (hkfc : c₂.key_fragment = b) (it : Option (K × V)) (kf : Nat) (x : Nat) :
    (Node.mk it kf (n.children.set i c₂)).child? x
      = if x = b then some c₂ else n.child? x := by
  obtain ⟨hi, hkf⟩ := Node.childSearch_ok h
  rw [Node.child?, Node.children_mk]
  by_cases hx : x = b
  · subst hx
    rw [if_pos rfl]
    refine find?_eq_some_of_unique ?_ ?_ ?_
    · exact List.mem_iff_getElem.mpr
        ⟨i, by rw [List.length_set]; exact hi, List.getElem_set_self _⟩
    · simp only [beq_iff_eq]
      exact hkfc
    · intro c'' hc'' hpc
      rw [beq_iff_eq] at hpc
      obtain ⟨j, hjs, hgj⟩ := List.mem_iff_getElem.mp hc''
      have hj : j < n.children.length := by rwa [List.length_set] at hjs
      by_cases hji : j = i
      · subst hji
        rw [List.getElem_set_self _] at hgj
        exact hgj.symm
      · have hset : (n.children.set i c₂)[j] = n.children[j] :=
          List.getElem_set_ne (fun he => hji he.symm) hjs
        rw [hset] at hgj
        exfalso
        have hnd := Node.kf_nodup hs
        have hpg := List.pairwise_iff_getElem.mp hnd
        have hkfj : (n.children[j]).key_fragment = x := by rw [hgj]; exact hpc
        have hkfi : (n.children[i]).key_fragment = x := by
          have := hkf n
          rwa [List.getD_eq_getElem _ _ hi] at this
        rcases Nat.lt_or_ge j i with hc | hc
        · exact (hpg j i hj hi hc) (hkfj.trans hkfi.symm)
        · exact (hpg i j hi hj (by omega)) (hkfi.trans hkfj.symm)
  · rw [if_neg hx, Node.child?]
    refine find?_set_of_neg _ i _ hi (fun h' => ?_) ?_
    · simp only [beq_eq_false_iff_ne, ne_eq]
      have := hkf n
      rw [List.getD_eq_getElem _ _ hi] at this
      rw [this]
      exact fun he => hx he.symm
    · simp only [beq_eq_false_iff_ne, ne_eq]
      rw [hkfc]
      exact fun he => hx he.symm

theorem Node.takeItemAt_nil {K V : Type} (n : Node K V) :
    n.takeItemAt []
      = match n.item with
        | none => none
        | some kv => some (kv, .mk none n.key_fragment n.children) := by
  rw [Node.takeItemAt]

theorem Node.takeItemAt_cons_ok {K V : Type} {n : Node K V} {b i : Nat} (bs : List Nat)
    (h : n.childSearch b = Except.ok i) :
    n.takeItemAt (b :: bs)
      = ((n.children.getD i n).takeItemAt bs).map
          (fun r => (r.1, .mk n.item n.key_fragment (n.children.set i r.2))) := by
  rw [Node.takeItemAt, h]

theorem Node.takeItemAt_cons_err {K V : Type} {n : Node K V} {b i : Nat} (bs : List Nat)
    (h : n.childSearch b = Except.error i) :
    n.takeItemAt (b :: bs) = none := by
  rw [Node.takeItemAt, h]

theorem Node.takeItemAt_none_iff {K V : Type} :
    ∀ (p : List Nat) (n : Node K V), n.sortedB = true →
      (n.takeItemAt p = none ↔ n.slotAt p = none) := by
  intro p
  induction p with
  | nil =>
    intro n hs
    rw [Node.takeItemAt_nil, Node.slotAt_nil]
    cases n.item <;> simp
  | cons b bs ih =>
    intro n hs
    cases h : n.childSearch b with
    | ok i =>
      obtain ⟨hi, hkf⟩ := Node.childSearch_ok h
      have hcs : (n.children.getD i n).sortedB = true := by
        refine Node.sortedB_children hs _ ?_
        rw [List.getD_eq_getElem _ _ hi]
        exact List.getElem_mem hi
      have hsl : n.slotAt (b :: bs) = (n.children.getD i n).slotAt bs := by
        rw [Node.slotAt_cons n b bs hs, Node.child?_ok hs h]
      rw [hsl, Node.takeItemAt_cons_ok bs h]
      rw [Option.map_eq_none']
      exact ih _ hcs
    | error i =>
      have hsl : n.slotAt (b :: bs) = none := by
        rw [Node.slotAt_cons n b bs hs, Node.child?_err hs h]
      rw [hsl, Node.takeItemAt_cons_err bs h]
      simp

theorem Node.takeItemAt_some_spec {K V : Type} :
    ∀ (p : List Nat) (n : Node K V) (kv : K × V) (n' : Node K V), n.sortedB = true →
      n.takeItemAt p = some (kv, n') →
      n.slotAt p = some kv ∧ n'.slotAt p = none
        ∧ (∀ q, q ≠ p → n'.slotAt q = n.slotAt q)
        ∧ n'.sortedB = true ∧ n'.count + 1 = n.count
        ∧ n'.key_fragment = n.key_fragment
        ∧ (∀ (kb : K → List Nat) (path : List Nat),
            Node.pathOkB kb path n = true → Node.pathOkB kb path n' = true) := by
  intro p
  induction p with
  | nil =>
    intro n kv n' hs h
    rw [Node.takeItemAt_nil] at h
    cases hit : n.item with
    | none => rw [hit] at h; cases h
    | some kv₀ =>
      rw [hit] at h
      cases h
      refine ⟨by rw [Node.slotAt_nil, hit], rfl, ?_, ?_, ?_, rfl, ?_⟩
      · intro q hq
        cases q with
        | nil => exact absurd rfl hq
        | cons a qs =>
          have hs' : (Node.mk none n.key_fragment n.children).sortedB = true := by
            rw [Node.sortedB_mk_children]; exact hs
          rw [Node.slotAt_cons _ a qs hs', Node.slotAt_cons n a qs hs, Node.child?_mk]
      · rw [Node.sortedB_mk_children]; exact hs
      · rw [Node.count_mk, Node.count_eq n, hit]
        simp only [Option.isSome_none, Option.isSome_some, Bool.false_eq_true, if_false,
          if_true]
        omega
      · intro kb path hp
        rw [← Node.eta n, Node.pathOkB_mk, Bool.and_eq_true] at hp
        rw [Node.pathOkB_mk, Bool.and_eq_true]
        exact ⟨rfl, hp.2⟩
  | cons b bs ih =>
    intro n kv n' hs h
    cases hcs : n.childSearch b with
    | ok i =>
      obtain ⟨hi, hkf⟩ := Node.childSearch_ok hcs
      have hmem : n.children.getD i n ∈ n.children := by
        rw [List.getD_eq_getElem _ _ hi]
        exact List.getElem_mem hi
      have hsc : (n.children.getD i n).sortedB = true :=
        Node.sortedB_children hs _ hmem
      rw [Node.takeItemAt_cons_ok bs hcs] at h
      cases hch : (n.children.getD i n).takeItemAt bs with
      | none => rw [hch] at h; cases h
      | some r =>
        rw [hch] at h
        cases h
        obtain ⟨hslot, hslot', hframe, hsorted₂, hcount₂, hkf₂, hpath₂⟩ :=
          ih _ r.1 r.2 hsc hch
        have hkfc : r.2.key_fragment = b := by rw [hkf₂]; exact hkf n
        have hfr : (n.children.set i r.2).map Node.key_fragment
            = n.children.map Node.key_fragment :=
          Node.frags_set_same hi (by rw [hkf₂])
        have hsorted' : (Node.mk n.item n.key_fragment (n.children.set i r.2)).sortedB
            = true := by
          rw [Node.sortedB_mk, Bool.and_eq_true]
          constructor
          · rw [hfr]
            exact ascFragsB_iff_pairwise.mpr (Node.sortedB_frags hs)
          · rw [Node.sortedPileB_iff]
            intro c hc
            rcases List.mem_or_eq_of_mem_set hc with hm | he
            · exact Node.sortedB_children hs c hm
            · subst he; exact hsorted₂
        have hchild' := Node.child?_set_of_ok hs hcs hkfc n.item n.key_fragment
        have hsl : n.slotAt (b :: bs) = (n.children.getD i n).slotAt bs := by
          rw [Node.slotAt_cons n b bs hs, Node.child?_ok hs hcs]
        refine ⟨by rw [hsl]; exact hslot, ?_, ?_, hsorted', ?_, rfl, ?_⟩
        · rw [Node.slotAt_cons _ b bs hsorted', hchild' b, if_pos rfl]
          exact hslot'
        · intro q hq
          cases q with
          | nil =>
            rw [Node.slotAt_nil, Node.slotAt_nil]
            rfl
          | cons a qs =>
            rw [Node.slotAt_cons _ a qs hsorted', Node.slotAt_cons n a qs hs, hchild' a]
            by_cases hab : a = b
            · subst hab
              rw [if_pos rfl]
              have hqs : qs ≠ bs := fun he => hq (by rw [he])
              rw [Node.child?_ok hs hcs]
              exact hframe qs hqs
            · rw [if_neg hab]
        · rw [Node.count_mk, Node.count_eq n]
          have hset := Node.countPile_set n.children i r.2 n hi
          omega
        · intro kb path hp
          rw [← Node.eta n, Node.pathOkB_mk, Bool.and_eq_true] at hp
          rw [Node.pathOkB_mk, Bool.and_eq_true]
          refine ⟨hp.1, ?_⟩
          rw [Node.pathOkPileB_iff]
          intro c hc
          rcases List.mem_or_eq_of_mem_set hc with hm | he
          · exact (Node.pathOkPileB_iff kb path n.children).mp hp.2 c hm
          · subst he
            rw [hkfc]
            refine hpath₂ kb (path ++ [b]) ?_
            have := (Node.pathOkPileB_iff kb path n.children).mp hp.2 _ hmem
            rwa [hkf n] at this
    | error i =>
      rw [Node.takeItemAt_cons_err bs hcs] at h
      cases h

end Pfx

/-! ## Lemmas about `compact` -/

namespace Pfx

theorem Node.compact_kf {K V : Type} (n : Node K V) :
    (n.compact).1.key_fragment = n.key_fragment := by
  cases n with
  | mk it kf cs => rw [Node.compact_mk]; rfl

theorem Node.compact_item {K V : Type} (n : Node K V) :
    (n.compact).1.item = n.item := by
  cases n with
  | mk it kf cs => rw [Node.compact_mk]; rfl

theorem Node.countPile_zero {K V : Type} {cs : List (Node K V)}
    (h : Node.countPile cs = 0) : ∀ c ∈ cs, c.count = 0 := by
  induction cs with
  | nil => simp
  | cons c rest ih =>
    rw [Node.countPile_cons] at h
    intro c' hc'
    rcases List.mem_cons.mp hc' with he | hm
    · subst he; omega
    · exact ih (by omega) c' hm

theorem Node.count_zero_slotAt {K V : Type} :
    ∀ (q : List Nat) (n : Node K V), n.count = 0 → n.slotAt q = none := by
  intro q
  induction q with
  | nil =>
    intro n h
    rw [Node.slotAt_nil]
    rw [Node.count_eq] at h
    cases hit : n.item with
    | none => rfl
    | some kv => rw [hit] at h; simp at h
  | cons b bs ih =>
    intro n h
    rw [Node.count_eq] at h
    rw [Node.slotAt, Node.search]
    cases hcs : n.childSearch b with
    | ok i =>
      obtain ⟨hi, _⟩ := Node.childSearch_ok hcs
      have hmem : n.children.getD i n ∈ n.children := by
        rw [List.getD_eq_getElem _ _ hi]
        exact List.getElem_mem hi
      have hz : (n.children.getD i n).count = 0 :=
        Node.countPile_zero (by omega) _ hmem
      have := ih _ hz
      rw [Node.slotAt] at this
      exact this
    | error i => rfl

theorem Node.compactPile_snd_iff {K V : Type} (cs : List (Node K V))
    (h : ∀ c ∈ cs, ((c.compact).2 = true ↔ 0 < c.count)) :
    ((Node.compactPile cs).2 = true ↔ 0 < Node.countPile cs) := by
  induction cs with
  | nil => simp [Node.compactPile_nil, Node.countPile_nil]
  | cons c rest ih =>
    rw [Node.compactPile_cons, Node.countPile_cons]
    simp only [Bool.or_eq_true]
    rw [h c (by simp), ih (fun c hc => h c (by simp [hc]))]
    omega

theorem Node.compact_snd_iff {K V : Type} (n : Node K V) :
    ((n.compact).2 = true ↔ 0 < n.count) := by
  induction n using Node.inductionOn with
  | step it kf cs ihm =>
    rw [Node.compact_mk, Node.count_mk]
    simp only [Bool.or_eq_true]
    rw [Node.compactPile_snd_iff cs ihm]
    cases it <;> (simp; try omega)

theorem Node.toListPile_compact {K V : Type} (cs : List (Node K V))
    (h : ∀ c ∈ cs, ((c.compact).1.toList = c.toList)) :
    Node.toListPile (Node.compactPile cs).1 = Node.toListPile cs := by
  induction cs with
  | nil => rw [Node.compactPile_nil]
  | cons c rest ih =>
    rw [Node.compactPile_cons, Node.toListPile_cons]
    by_cases hu : (c.compact).2 = true
    · rw [if_pos hu, Node.toListPile_cons, h c (by simp),
        ih (fun c hc => h c (by simp [hc]))]
    · rw [if_neg hu]
      have hz : c.count = 0 := by
        have := Node.compact_snd_iff c
        rcases Nat.eq_zero_or_pos c.count with h0 | hpos
        · exact h0
        · exact absurd (this.mpr hpos) hu
      have : c.toList = [] := by
        have hlen := Node.count_eq_toList_length c
        rw [hz] at hlen
        exact List.eq_nil_of_length_eq_zero hlen.symm
      rw [this, List.nil_append, ih (fun c hc => h c (by simp [hc]))]

theorem Node.compact_toList {K V : Type} (n : Node K V) :
    (n.compact).1.toList = n.toList := by
  induction n using Node.inductionOn with
  | step it kf cs ihm =>
    rw [Node.compact_mk, Node.toList_mk, Node.toList_mk, Node.toListPile_compact cs ihm]

theorem Node.compact_count {K V : Type} (n : Node K V) :
    (n.compact).1.count = n.count := by
  rw [Node.count_eq_toList_length, Node.count_eq_toList_length, Node.compact_toList]

theorem Node.compactPile_frags_sublist {K V : Type} (cs : List (Node K V)) :
    ((Node.compactPile cs).1.map Node.key_fragment).Sublist
      (cs.map Node.key_fragment) := by
  induction cs with
  | nil => rw [Node.compactPile_nil]
  | cons c rest ih =>
    rw [Node.compactPile_cons]
    by_cases hu : (c.compact).2 = true
    · rw [if_pos hu]
      simp only [List.map_cons]
      rw [Node.compact_kf]
      exact ih.cons₂ _
    · rw [if_neg hu]
      simp only [List.map_cons]
      exact ih.cons _

theorem Node.compactPile_mem {K V : Type} {cs : List (Node K V)} {c' : Node K V}
    (h : c' ∈ (Node.compactPile cs).1) :
    ∃ c ∈ cs, c' = (c.compact).1 ∧ (c.compact).2 = true := by
  induction cs with
  | nil => rw [Node.compactPile_nil] at h; simp at h
  | cons c rest ih =>
    rw [Node.compactPile_cons] at h
    by_cases hu : (c.compact).2 = true
    · rw [if_pos hu] at h
      rcases List.mem_cons.mp h with he | hm
      · exact ⟨c, by simp, he, hu⟩
      · obtain ⟨c₀, hc₀, he₀, hu₀⟩ := ih hm
        exact ⟨c₀, by simp [hc₀], he₀, hu₀⟩
    · rw [if_neg hu] at h
      obtain ⟨c₀, hc₀, he₀, hu₀⟩ := ih h
      exact ⟨c₀, by simp [hc₀], he₀, hu₀⟩

theorem Node.compact_sortedB {K V : Type} (n : Node K V) (hs : n.sortedB = true) :
    (n.compact).1.sortedB = true := by
  induction n using Node.inductionOn with
  | step it kf cs ihm =>
    rw [Node.compact_mk, Node.sortedB_mk, Bool.and_eq_true]
    constructor
    · refine ascFragsB_iff_pairwise.mpr ?_
      refine List.Pairwise.sublist (Node.compactPile_frags_sublist cs) ?_
      exact Node.sortedB_frags hs
    · rw [Node.sortedPileB_iff]
      intro c' hc'
      obtain ⟨c, hc, he, _⟩ := Node.compactPile_mem hc'
      subst he
      exact ihm c hc (Node.sortedB_children hs c hc)

theorem find?_compactPile {K V : Type} (b : Nat) :
    ∀ (cs : List (Node K V)),
      List.Pairwise (fun x y => Node.key_fragment x ≠ Node.key_fragment y) cs →
      (Node.compactPile cs).1.find? (fun c => c.key_fragment == b)
        = match cs.find? (fun c => c.key_fragment == b) with
          | none => none
          | some c => if (c.compact).2 then some (c.compact).1 else none := by
  intro cs
  induction cs with
  | nil => rw [Node.compactPile_nil]; simp
  | cons c rest ih =>
    intro hnd
    rw [List.pairwise_cons] at hnd
    rw [Node.compactPile_cons]
    by_cases hb : c.key_fragment = b
    · rw [List.find?_cons_of_pos _ (by simpa using hb)]
      have hrest : (Node.compactPile rest).1.find? (fun c => c.key_fragment == b)
          = none := by
        rw [List.find?_eq_none]
        intro c' hc' hp
        rw [beq_iff_eq] at hp
        obtain ⟨c₀, hc₀, he₀, _⟩ := Node.compactPile_mem hc'
        subst he₀
        rw [Node.compact_kf] at hp
        exact (hnd.1 c₀ hc₀) (hb ▸ hp ▸ rfl)
      by_cases hu : (c.compact).2 = true
      · rw [if_pos hu]
        rw [List.find?_cons_of_pos _ (by simp only [beq_iff_eq]; rw [Node.compact_kf]; exact hb)]
        show _ = if (c.compact).2 = true then some (c.compact).1 else none
        rw [if_pos hu]
      · rw [if_neg hu, hrest]
        show (none : Option (Node K V)) = if (c.compact).2 = true then some (c.compact).1 else none
        rw [if_neg hu]
    · rw [List.find?_cons_of_neg _ (by simpa using hb)]
      by_cases hu : (c.compact).2 = true
      · rw [if_pos hu]
        rw [List.find?_cons_of_neg _ (by simp only [beq_iff_eq]; rw [Node.compact_kf]; exact hb)]
        exact ih hnd.2
      · rw [if_neg hu]
        exact ih hnd.2

theorem Node.compact_child? {K V : Type} (n : Node K V) (hs : n.sortedB = true) (b : Nat) :
    (n.compact).1.child? b
      = match n.child? b with
        | none => none
        | some c => if (c.compact).2 then some (c.compact).1 else none := by
  cases n with
  | mk it kf cs =>
    rw [Node.compact_mk, Node.child?, Node.child?, Node.children_mk, Node.children_mk]
    exact find?_compactPile b cs (Node.kf_nodup hs)

theorem Node.compact_slotAt {K V : Type} :
    ∀ (p : List Nat) (n : Node K V), n.sortedB = true →
      (n.compact).1.slotAt p = n.slotAt p := by
  intro p
  induction p with
  | nil =>
    intro n hs
    rw [Node.slotAt_nil, Node.slotAt_nil, Node.compact_item]
  | cons b bs ih =>
    intro n hs
    rw [Node.slotAt_cons _ b bs (Node.compact_sortedB n hs), Node.slotAt_cons n b bs hs]
    have hcb := Node.compact_child? n hs b
    cases hc : n.child? b with
    | none =>
      rw [hc] at hcb
      have hcb' : (n.compact).1.child? b = (none : Option (Node K V)) := hcb
      rw [hcb']
    | some c =>
      rw [hc] at hcb
      have hcb' : (n.compact).1.child? b
          = if (c.compact).2 = true then some (c.compact).1 else none := hcb
      have hcs : c.sortedB = true := Node.sortedB_children hs c (Node.child?_mem hc)
      by_cases hu : (c.compact).2 = true
      · rw [hcb', if_pos hu]
        show (c.compact).1.slotAt bs = c.slotAt bs
        exact ih c hcs
      · rw [hcb', if_neg hu]
        show (none : Option (K × V)) = c.slotAt bs
        have hz : c.count = 0 := by
          rcases Nat.eq_zero_or_pos c.count with h0 | hpos
          · exact h0
          · exact absurd ((Node.compact_snd_iff c).mpr hpos) hu
        rw [Node.count_zero_slotAt bs c hz]

theorem Node.compactPile_idem {K V : Type} (cs : List (Node K V))
    (h : ∀ c ∈ cs, (c.compact).1.compact = c.compact) :
    Node.compactPile (Node.compactPile cs).1 = Node.compactPile cs := by
  induction cs with
  | nil => rw [Node.compactPile_nil]; rfl
  | cons c rest ih =>
    have ihr := ih (fun c hc => h c (by simp [hc]))
    by_cases hu : (c.compact).2 = true
    · rw [Node.compactPile_cons, if_pos hu, Node.compactPile_cons, h c (by simp), ihr,
        if_pos hu]
    · have hu' : (c.compact).2 = false := by
        cases hcc : (c.compact).2
        · rfl
        · exact absurd hcc hu
      rw [Node.compactPile_cons, if_neg hu, ihr, hu', Bool.false_or]

theorem Node.compact_idem {K V : Type} (n : Node K V) :
    (n.compact).1.compact = n.compact := by
  induction n using Node.inductionOn with
  | step it kf cs ihm =>
    rw [Node.compact_mk, Node.compact_mk, Node.compactPile_idem cs ihm]

end Pfx

/-! ## Lexicographic order of the in-order listing -/

namespace Pfx

theorem lex_append {α : Type} (r : α → α → Prop) :
    ∀ (p t : List α), t ≠ [] → List.Lex r p (p ++ t) := by
  intro p
  induction p with
  | nil =>
    intro t ht
    cases t with
    | nil => exact absurd rfl ht
    | cons a t' => exact List.Lex.nil
  | cons a p' ih =>
    intro t ht
    exact List.Lex.cons (ih t ht)

theorem lex_middle {α : Type} (r : α → α → Prop) {a b : α} (hr : r a b) :
    ∀ (p l₁ l₂ : List α), List.Lex r (p ++ a :: l₁) (p ++ b :: l₂) := by
  intro p
  induction p with
  | nil => intro l₁ l₂; exact List.Lex.rel hr
  | cons x p' ih => intro l₁ l₂; exact List.Lex.cons (ih l₁ l₂)

theorem prefix_snoc_inj {α : Type} {xs key : List α} {a b : α}
    (ha : (xs ++ [a]) <+: key) (hb : (xs ++ [b]) <+: key) : a = b := by
  obtain ⟨t₁, ht₁⟩ := ha
  obtain ⟨t₂, ht₂⟩ := hb
  rw [← ht₂] at ht₁
  rw [List.append_assoc, List.append_assoc] at ht₁
  have := List.append_cancel_left ht₁
  simp at this
  exact this.1

theorem Node.mem_toListPile {K V : Type} {kv : K × V} :
    ∀ {cs : List (Node K V)}, kv ∈ Node.toListPile cs ↔ ∃ c ∈ cs, kv ∈ c.toList := by
  intro cs
  induction cs with
  | nil => rw [Node.toListPile_nil]; simp
  | cons c rest ih =>
    rw [Node.toListPile_cons]
    simp only [List.mem_append, List.mem_cons]
    rw [ih]
    constructor
    · rintro (h | ⟨c', hc', hkv⟩)
      · exact ⟨c, Or.inl rfl, h⟩
      · exact ⟨c', Or.inr hc', hkv⟩
    · rintro ⟨c', hc' | hc', hkv⟩
      · exact Or.inl (hc' ▸ hkv)
      · exact Or.inr ⟨c', hc', hkv⟩

theorem Node.toList_key_prefixed {K V : Type} (kb : K → List Nat) :
    ∀ (n : Node K V) (path : List Nat), Node.pathOkB kb path n = true →
      ∀ kv ∈ n.toList, path <+: kb kv.1 := by
  intro n
  induction n using Node.inductionOn with
  | step it kf cs ihm =>
    intro path hp kv hkv
    rw [Node.pathOkB_mk, Bool.and_eq_true] at hp
    rw [Node.toList_mk, List.mem_append] at hkv
    rcases hkv with hit | hpile
    · cases it with
      | none => simp [Option.toList] at hit
      | some kv₀ =>
        simp only [Option.toList, List.mem_singleton] at hit
        subst hit
        simp only [decide_eq_true_eq] at hp
        rw [hp.1]
    · obtain ⟨c, hc, hkvc⟩ := Node.mem_toListPile.mp hpile
      have hpc := (Node.pathOkPileB_iff kb path cs).mp hp.2 c hc
      have := ihm c hc (path ++ [c.key_fragment]) hpc kv hkvc
      exact (List.prefix_append path [c.key_fragment]).trans this

theorem Node.toListPile_sorted {K V : Type} (kb : K → List Nat) (path : List Nat) :
    ∀ (cs : List (Node K V)),
      List.Pairwise (· < ·) (cs.map Node.key_fragment) →
      (∀ c ∈ cs, List.Pairwise (fun x y => List.Lex (· < ·) (kb x.1) (kb y.1)) c.toList) →
      (∀ c ∈ cs, ∀ kv ∈ c.toList, (path ++ [c.key_fragment]) <+: kb kv.1) →
      List.Pairwise (fun x y => List.Lex (· < ·) (kb x.1) (kb y.1))
        (Node.toListPile cs) := by
  intro cs
  induction cs with
  | nil => intro _ _ _; rw [Node.toListPile_nil]; exact List.Pairwise.nil
  | cons c rest ih =>
    intro hfr h1 h2
    simp only [List.map_cons, List.pairwise_cons] at hfr
    rw [Node.toListPile_cons, List.pairwise_append]
    refine ⟨h1 c (by simp), ih hfr.2 (fun c' hc' => h1 c' (by simp [hc']))
      (fun c' hc' => h2 c' (by simp [hc'])), ?_⟩
    intro x hx y hy
    obtain ⟨c', hc', hyc'⟩ := Node.mem_toListPile.mp hy
    have hkflt : c.key_fragment < c'.key_fragment :=
      hfr.1 c'.key_fragment (List.mem_map.mpr ⟨c', hc', rfl⟩)
    obtain ⟨t₁, ht₁⟩ := h2 c (by simp) x hx
    obtain ⟨t₂, ht₂⟩ := h2 c' (by simp [hc']) y hyc'
    rw [← ht₁, ← ht₂, List.append_assoc, List.append_assoc]
    exact lex_middle (· < ·) hkflt path _ _

theorem Node.toList_sorted {K V : Type} (kb : K → List Nat) :
    ∀ (n : Node K V) (path : List Nat), n.sortedB = true →
      Node.pathOkB kb path n = true →
      List.Pairwise (fun x y => List.Lex (· < ·) (kb x.1) (kb y.1)) n.toList := by
  intro n
  induction n using Node.inductionOn with
  | step it kf cs ihm =>
    intro path hs hp
    have hfr := Node.sortedB_frags (n := Node.mk it kf cs) hs
    rw [Node.children_mk] at hfr
    rw [Node.pathOkB_mk, Bool.and_eq_true] at hp
    rw [Node.toList_mk, List.pairwise_append]
    refine ⟨?_, ?_, ?_⟩
    · cases it <;> simp [Option.toList]
    · refine Node.toListPile_sorted kb path cs hfr ?_ ?_
      · intro c hc
        exact ihm c hc (path ++ [c.key_fragment])
          (Node.sortedB_children (n := Node.mk it kf cs) hs c hc)
          ((Node.pathOkPileB_iff kb path cs).mp hp.2 c hc)
      · intro c hc kv hkv
        exact Node.toList_key_prefixed kb c (path ++ [c.key_fragment])
          ((Node.pathOkPileB_iff kb path cs).mp hp.2 c hc) kv hkv
    · intro x hx y hy
      cases it with
      | none => simp [Option.toList] at hx
      | some kv₀ =>
        simp only [Option.toList, List.mem_singleton] at hx
        subst hx
        simp only [decide_eq_true_eq] at hp
        obtain ⟨c, hc, hyc⟩ := Node.mem_toListPile.mp hy
        have hpfx := Node.toList_key_prefixed kb c (path ++ [c.key_fragment])
          ((Node.pathOkPileB_iff kb path cs).mp hp.2 c hc) y hyc
        obtain ⟨t, ht⟩ := hpfx
        rw [hp.1, ← ht, List.append_assoc]
        exact lex_append (· < ·) path _ (by simp)

end Pfx

/-! ## Filter characterisation of search and of the item slot -/

namespace Pfx

theorem Node.toList_eq {K V : Type} (n : Node K V) :
    n.toList = n.item.toList ++ Node.toListPile n.children := by
  cases n; rfl

theorem Node.pathOkB_item {K V : Type} {kb : K → List Nat} {path : List Nat}
    {n : Node K V} (hp : Node.pathOkB kb path n = true) :
    ∀ kv, n.item = some kv → kb kv.1 = path := by
  cases n with
  | mk it kf cs =>
    rw [Node.pathOkB_mk, Bool.and_eq_true] at hp
    intro kv he
    rw [Node.item_mk] at he
    subst he
    have := hp.1
    simpa using this

theorem Node.pathOkB_children {K V : Type} {kb : K → List Nat} {path : List Nat}
    {n : Node K V} (hp : Node.pathOkB kb path n = true) :
    Node.pathOkPileB kb path n.children = true := by
  cases n with
  | mk it kf cs =>
    rw [Node.pathOkB_mk, Bool.and_eq_true] at hp
    exact hp.2

theorem Node.filter_toList_child_ne {K V : Type} (kb : K → List Nat) {c : Node K V}
    (path : List Nat) (hpc : Node.pathOkB kb (path ++ [c.key_fragment]) c = true)
    {b : Nat} (hne : c.key_fragment ≠ b) (pred : List Nat → Bool)
    (hpred : ∀ key, pred key = true → (path ++ [b]) <+: key) :
    c.toList.filter (fun kv => pred (kb kv.1)) = [] := by
  rw [List.filter_eq_nil_iff]
  intro kv hkv hp
  have h1 := Node.toList_key_prefixed kb c (path ++ [c.key_fragment]) hpc kv hkv
  have h2 := hpred (kb kv.1) hp
  exact hne (prefix_snoc_inj h1 h2)

/-- Filtering the in-order listing of a pile of sorted, path-coherent
children by any predicate that forces the next byte to be `b` singles out
the (unique) `b`-labelled child's contribution. -/
theorem Node.filter_toListPile_byte {K V : Type} (kb : K → List Nat) (path : List Nat)
    (b : Nat) (pred : List Nat → Bool)
    (hpred : ∀ key, pred key = true → (path ++ [b]) <+: key) :
    ∀ (cs : List (Node K V)),
      List.Pairwise (fun x y => Node.key_fragment x ≠ Node.key_fragment y) cs →
      Node.pathOkPileB kb path cs = true →
      (Node.toListPile cs).filter (fun kv => pred (kb kv.1))
        = match cs.find? (fun c => c.key_fragment == b) with
          | none => []
          | some c => c.toList.filter (fun kv => pred (kb kv.1)) := by
  intro cs
  induction cs with
  | nil => intro _ _; rw [Node.toListPile_nil]; simp
  | cons c rest ih =>
    intro hnd hpile
    rw [List.pairwise_cons] at hnd
    rw [Node.pathOkPileB_cons, Bool.and_eq_true] at hpile
    rw [Node.toListPile_cons, List.filter_append]
    by_cases hcb : c.key_fragment = b
    · rw [List.find?_cons_of_pos _ (by simpa using hcb)]
      have hrest : (Node.toListPile rest).filter (fun kv => pred (kb kv.1)) = [] := by
        rw [List.filter_eq_nil_iff]
        intro kv hkv hpk
        obtain ⟨c', hc', hkvc'⟩ := Node.mem_toListPile.mp hkv
        have hc'ne : c'.key_fragment ≠ b := by
          intro he
          exact (hnd.1 c' hc') (hcb.trans he.symm)
        have hfc' := Node.filter_toList_child_ne kb path
          ((Node.pathOkPileB_iff kb path rest).mp hpile.2 c' hc') hc'ne pred hpred
        rw [List.filter_eq_nil_iff] at hfc'
        exact hfc' kv hkvc' hpk
      rw [hrest, List.append_nil]
    · rw [List.find?_cons_of_neg _ (by simpa using hcb)]
      rw [Node.filter_toList_child_ne kb path hpile.1 hcb pred hpred, List.nil_append]
      exact ih hnd.2 hpile.2

theorem Node.toList_filter_search {K V : Type} (kb : K → List Nat) :
    ∀ (p path : List Nat) (n : Node K V), n.sortedB = true →
      Node.pathOkB kb path n = true →
      n.toList.filter (fun kv => (path ++ p).isPrefixOf (kb kv.1))
        = match n.search p with
          | none => []
          | some nd => nd.toList := by
  intro p
  induction p with
  | nil =>
    intro path n hs hp
    rw [Node.search_nil]
    rw [List.filter_eq_self.mpr]
    intro kv hkv
    rw [List.isPrefixOf_iff_prefix]
    have := Node.toList_key_prefixed kb n path hp kv hkv
    rwa [List.append_nil]
  | cons b bs ih =>
    intro path n hs hp
    have hpred : ∀ key, (path ++ b :: bs).isPrefixOf key = true → (path ++ [b]) <+: key := by
      intro key hk
      rw [List.isPrefixOf_iff_prefix] at hk
      exact List.IsPrefix.trans ⟨bs, by simp⟩ hk
    rw [Node.toList_eq, List.filter_append]
    have hitem : (Option.toList n.item).filter
        (fun kv => (path ++ b :: bs).isPrefixOf (kb kv.1)) = [] := by
      rw [List.filter_eq_nil_iff]
      intro kv hkv hpk
      cases hit : n.item with
      | none => rw [hit] at hkv; simp [Option.toList] at hkv
      | some kv₀ =>
        rw [hit] at hkv
        simp only [Option.toList, List.mem_singleton] at hkv
        have h1 := Node.pathOkB_item hp kv₀ hit
        rw [hkv, List.isPrefixOf_iff_prefix, h1] at hpk
        have := hpk.length_le
        simp at this
    rw [hitem, List.nil_append]
    rw [Node.search_cons n b bs hs]
    have hpile := Node.filter_toListPile_byte kb path b
      (fun key => (path ++ b :: bs).isPrefixOf key) hpred n.children
      (Node.kf_nodup hs) (Node.pathOkB_children hp)
    rw [hpile]
    show (match n.child? b with
          | none => []
          | some c => c.toList.filter (fun (kv : K × V) => (path ++ b :: bs).isPrefixOf (kb kv.1)))
        = _
    cases hc : n.child? b with
    | none => rfl
    | some c =>
      have hcs : c.sortedB = true := Node.sortedB_children hs c (Node.child?_mem hc)
      have hpc : Node.pathOkB kb (path ++ [b]) c = true := by
        have := (Node.pathOkPileB_iff kb path n.children).mp (Node.pathOkB_children hp)
          c (Node.child?_mem hc)
        rwa [Node.child?_kf hc] at this
      have hrw : ∀ kv : K × V, (path ++ b :: bs).isPrefixOf (kb kv.1)
          = ((path ++ [b]) ++ bs).isPrefixOf (kb kv.1) := by
        intro kv
        rw [List.append_cons]
      simp only [hrw]
      exact ih (path ++ [b]) c hcs hpc

theorem Node.toList_filter_exact {K V : Type} (kb : K → List Nat) :
    ∀ (p path : List Nat) (n : Node K V), n.sortedB = true →
      Node.pathOkB kb path n = true →
      n.toList.filter (fun kv => kb kv.1 == path ++ p) = (n.slotAt p).toList := by
  intro p
  induction p with
  | nil =>
    intro path n hs hp
    rw [Node.slotAt_nil, Node.toList_eq, List.filter_append]
    have hpile : (Node.toListPile n.children).filter (fun kv => kb kv.1 == path ++ []) = [] := by
      rw [List.filter_eq_nil_iff]
      intro kv hkv hpk
      obtain ⟨c, hc, hkvc⟩ := Node.mem_toListPile.mp hkv
      have hpc := (Node.pathOkPileB_iff kb path n.children).mp
        (Node.pathOkB_children hp) c hc
      have hpfx := Node.toList_key_prefixed kb c (path ++ [c.key_fragment]) hpc kv hkvc
      rw [beq_iff_eq, List.append_nil] at hpk
      rw [hpk] at hpfx
      have := hpfx.length_le
      simp at this
    rw [hpile, List.append_nil]
    cases hit : n.item with
    | none => simp [Option.toList]
    | some kv₀ =>
      have h1 := Node.pathOkB_item hp kv₀ hit
      simp [Option.toList, h1]
  | cons b bs ih =>
    intro path n hs hp
    have hpred : ∀ key, (key == path ++ b :: bs) = true → (path ++ [b]) <+: key := by
      intro key hk
      rw [beq_iff_eq] at hk
      subst hk
      exact ⟨bs, by simp⟩
    rw [Node.toList_eq, List.filter_append]
    have hitem : (Option.toList n.item).filter (fun kv => kb kv.1 == path ++ b :: bs) = [] := by
      rw [List.filter_eq_nil_iff]
      intro kv hkv hpk
      cases hit : n.item with
      | none => rw [hit] at hkv; simp [Option.toList] at hkv
      | some kv₀ =>
        rw [hit] at hkv
        simp only [Option.toList, List.mem_singleton] at hkv
        have h1 := Node.pathOkB_item hp kv₀ hit
        rw [hkv, beq_iff_eq, h1] at hpk
        have : (path ++ b :: bs).length = path.length := by rw [← hpk]
        simp at this
    rw [hitem, List.nil_append]
    rw [Node.slotAt_cons n b bs hs]
    have hpile := Node.filter_toListPile_byte kb path b
      (fun key => key == path ++ b :: bs) hpred n.children
      (Node.kf_nodup hs) (Node.pathOkB_children hp)
    rw [hpile]
    show (match n.child? b with
          | none => []
          | some c => c.toList.filter (fun (kv : K × V) => kb kv.1 == path ++ b :: bs))
        = _
    cases hc : n.child? b with
    | none => rfl
    | some c =>
      have hcs : c.sortedB = true := Node.sortedB_children hs c (Node.child?_mem hc)
      have hpc : Node.pathOkB kb (path ++ [b]) c = true := by
        have := (Node.pathOkPileB_iff kb path n.children).mp (Node.pathOkB_children hp)
          c (Node.child?_mem hc)
        rwa [Node.child?_kf hc] at this
      have hrw : ∀ kv : K × V, (kb kv.1 == path ++ b :: bs)
          = (kb kv.1 == (path ++ [b]) ++ bs) := by
        intro kv
        rw [List.append_cons]
      simp only [hrw]
      exact ih (path ++ [b]) c hcs hpc

end Pfx

/-! ## Iterator state machine: the fuel is sufficient and the run is the denotation -/

namespace Pfx

theorem NodeIterS.size_none {K V : Type} (it : Option (K × V)) (cs : List (Node K V)) :
    (NodeIterS.mk it cs none).size = 1 + (if it.isSome then 1 else 0) + Node.sizePile cs := rfl

theorem NodeIterS.size_some {K V : Type} (it : Option (K × V)) (cs : List (Node K V))
    (s : NodeIterS K V) :
    (NodeIterS.mk it cs (some s)).size
      = 1 + (if it.isSome then 1 else 0) + Node.sizePile cs + s.size := rfl

theorem Node.iterS_size_le {K V : Type} : ∀ n : Node K V, (n.iterS).size ≤ n.size := by
  intro n
  induction n using Node.inductionOn with
  | step it kf cs ihm =>
    cases cs with
    | nil =>
      rw [Node.iterS, NodeIterS.size_none, Node.size_mk]
    | cons c rest =>
      rw [Node.iterS, NodeIterS.size_some, Node.size_mk, Node.sizePile_cons]
      have := ihm c (by simp)
      omega

theorem NodeIterS.nextF_zero {K V : Type} (s : NodeIterS K V) :
    NodeIterS.nextF 0 s = none := rfl

theorem NodeIterS.nextF_succ_item {K V : Type} (fuel : Nat) (it : K × V)
    (cs : List (Node K V)) (cc : Option (NodeIterS K V)) :
    NodeIterS.nextF (fuel + 1) (.mk (some it) cs cc) = some (it, .mk none cs cc) := rfl

theorem NodeIterS.nextF_succ_cc_none {K V : Type} (fuel : Nat) (cs : List (Node K V)) :
    NodeIterS.nextF (fuel + 1) (.mk (none : Option (K × V)) cs none)
      = match cs with
        | [] => none
        | c :: rest => NodeIterS.nextF fuel (.mk none rest (some c.iterS)) := rfl

theorem NodeIterS.nextF_succ_cc_some {K V : Type} (fuel : Nat) (cs : List (Node K V))
    (child : NodeIterS K V) :
    NodeIterS.nextF (fuel + 1) (.mk (none : Option (K × V)) cs (some child))
      = match NodeIterS.nextF fuel child with
        | some (x, child') => some (x, .mk none cs (some child'))
        | none =>
          match cs with
          | [] => none
          | c :: rest => NodeIterS.nextF fuel (.mk none rest (some c.iterS)) := rfl

theorem NodeIterS.size_step {K V : Type} (c : Node K V) (rest : List (Node K V))
    (cc : Option (NodeIterS K V)) :
    (NodeIterS.mk none rest (some c.iterS) : NodeIterS K V).size
      < (NodeIterS.mk none (c :: rest) cc).size := by
  have h1 := Node.iterS_size_le c
  cases cc with
  | none =>
    rw [NodeIterS.size_some, NodeIterS.size_none, Node.sizePile_cons]
    simp only [Option.isSome_none, Bool.false_eq_true, if_false]
    omega
  | some s =>
    have h2 := NodeIterS.size_positive s
    rw [NodeIterS.size_some, NodeIterS.size_some, Node.sizePile_cons]
    simp only [Option.isSome_none, Bool.false_eq_true, if_false]
    omega

theorem NodeIterS.nextF_step_congr {K V : Type} :
    ∀ (fuel : Nat) (s : NodeIterS K V), s.size ≤ fuel →
      NodeIterS.nextF fuel s = NodeIterS.nextF (fuel + 1) s := by
  intro fuel
  induction fuel with
  | zero =>
    intro s hs
    have := NodeIterS.size_positive s
    omega
  | succ fuel ih =>
    intro s hs
    cases s with
    | mk it cs cc =>
      cases it with
      | some kv => rw [NodeIterS.nextF_succ_item, NodeIterS.nextF_succ_item]
      | none =>
        cases cc with
        | none =>
          rw [NodeIterS.nextF_succ_cc_none, NodeIterS.nextF_succ_cc_none]
          cases cs with
          | nil => rfl
          | cons c rest =>
            refine ih _ ?_
            have := NodeIterS.size_step c rest (none : Option (NodeIterS K V))
            omega
        | some child =>
          rw [NodeIterS.nextF_succ_cc_some, NodeIterS.nextF_succ_cc_some]
          have hch : NodeIterS.nextF fuel child = NodeIterS.nextF (fuel + 1) child := by
            refine ih child ?_
            have h2 : (NodeIterS.mk (none : Option (K × V)) cs (some child)).size
                ≤ fuel + 1 := hs
            rw [NodeIterS.size_some] at h2
            omega
          rw [hch]
          cases hm : NodeIterS.nextF (fuel + 1) child with
          | some r => rfl
          | none =>
            cases cs with
            | nil => rfl
            | cons c rest =>
              refine ih _ ?_
              have := NodeIterS.size_step c rest (some child)
              omega

theorem NodeIterS.nextF_eq_next {K V : Type} :
    ∀ (fuel : Nat) (s : NodeIterS K V), s.size ≤ fuel →
      NodeIterS.nextF fuel s = s.next := by
  intro fuel
  induction fuel with
  | zero =>
    intro s hs
    have := NodeIterS.size_positive s
    omega
  | succ fuel ih =>
    intro s hs
    rcases Nat.eq_or_lt_of_le hs with he | hl
    · rw [NodeIterS.next, he]
    · have h1 : s.size ≤ fuel := by omega
      rw [← NodeIterS.nextF_step_congr fuel s h1]
      exact ih s h1

end Pfx

namespace Pfx

theorem NodeIterS.denote_none {K V : Type} (it : Option (K × V)) (cs : List (Node K V)) :
    (NodeIterS.mk it cs none).denote = it.toList ++ Node.toListPile cs := rfl

theorem NodeIterS.denote_some {K V : Type} (it : Option (K × V)) (cs : List (Node K V))
    (s : NodeIterS K V) :
    (NodeIterS.mk it cs (some s)).denote = it.toList ++ s.denote ++ Node.toListPile cs := rfl

theorem Node.denote_iterS {K V : Type} : ∀ n : Node K V, (n.iterS).denote = n.toList := by
  intro n
  induction n using Node.inductionOn with
  | step it kf cs ihm =>
    cases cs with
    | nil => rw [Node.iterS, NodeIterS.denote_none, Node.toList_mk]
    | cons c rest =>
      rw [Node.iterS, NodeIterS.denote_some, ihm c (by simp), Node.toList_mk,
        Node.toListPile_cons, List.append_assoc]

theorem NodeIterS.next_spec {K V : Type} :
    ∀ (fuel : Nat) (s : NodeIterS K V), s.size ≤ fuel →
      (s.next = none → s.denote = [])
      ∧ (∀ x s', s.next = some (x, s') → s.denote = x :: s'.denote ∧ s'.size < s.size) := by
  intro fuel
  induction fuel with
  | zero =>
    intro s hs
    have := NodeIterS.size_positive s
    omega
  | succ fuel ih =>
    intro s hs
    cases s with
    | mk it cs cc =>
      cases it with
      | some kv =>
        have hn : (NodeIterS.mk (some kv) cs cc).next
            = some (kv, NodeIterS.mk none cs cc) := by
          rw [← NodeIterS.nextF_eq_next (fuel + 1) _ hs, NodeIterS.nextF_succ_item]
        constructor
        · intro h; rw [hn] at h; cases h
        · intro x s' h
          rw [hn] at h
          cases h
          constructor
          · cases cc with
            | none => rw [NodeIterS.denote_none, NodeIterS.denote_none]; rfl
            | some s₀ => rw [NodeIterS.denote_some, NodeIterS.denote_some]; rfl
          · cases cc with
            | none =>
              rw [NodeIterS.size_none, NodeIterS.size_none]
              simp
            | some s₀ =>
              rw [NodeIterS.size_some, NodeIterS.size_some]
              simp
      | none =>
        cases cc with
        | some child =>
          have hchsz : child.size ≤ fuel := by
            have h2 : (NodeIterS.mk (none : Option (K × V)) cs (some child)).size
                ≤ fuel + 1 := hs
            rw [NodeIterS.size_some] at h2
            omega
          obtain ⟨ihn, ihs⟩ := ih child hchsz
          cases hcn : child.next with
          | some r =>
            have hn : (NodeIterS.mk (none : Option (K × V)) cs (some child)).next
                = some (r.1, NodeIterS.mk none cs (some r.2)) := by
              rw [← NodeIterS.nextF_eq_next (fuel + 1) _ hs, NodeIterS.nextF_succ_cc_some,
                NodeIterS.nextF_eq_next fuel child hchsz, hcn]
            obtain ⟨hd, hsz'⟩ := ihs r.1 r.2 hcn
            constructor
            · intro h; rw [hn] at h; cases h
            · intro x s' h
              rw [hn] at h
              cases h
              constructor
              · rw [NodeIterS.denote_some, NodeIterS.denote_some, hd]
                rfl
              · rw [NodeIterS.size_some, NodeIterS.size_some]
                omega
          | none =>
            have hde : child.denote = [] := ihn hcn
            cases cs with
            | nil =>
              have hn : (NodeIterS.mk (none : Option (K × V)) [] (some child)).next
                  = none := by
                rw [← NodeIterS.nextF_eq_next (fuel + 1) _ hs, NodeIterS.nextF_succ_cc_some,
                  NodeIterS.nextF_eq_next fuel child hchsz, hcn]
              constructor
              · intro _
                rw [NodeIterS.denote_some, hde, Node.toListPile_nil]
                rfl
              · intro x s' h
                rw [hn] at h
                cases h
            | cons c rest =>
              have hstep := NodeIterS.size_step c rest (some child)
              have hs' : (NodeIterS.mk none rest (some c.iterS) : NodeIterS K V).size
                  ≤ fuel := by
                have h2 : (NodeIterS.mk (none : Option (K × V)) (c :: rest)
                    (some child)).size ≤ fuel + 1 := hs
                omega
              have hn : (NodeIterS.mk (none : Option (K × V)) (c :: rest)
                    (some child)).next
                  = (NodeIterS.mk none rest (some c.iterS) : NodeIterS K V).next := by
                rw [← NodeIterS.nextF_eq_next (fuel + 1) _ hs, NodeIterS.nextF_succ_cc_some,
                  NodeIterS.nextF_eq_next fuel child hchsz, hcn]
                show NodeIterS.nextF fuel (NodeIterS.mk none rest (some c.iterS))
                  = (NodeIterS.mk none rest (some c.iterS) : NodeIterS K V).next
                exact NodeIterS.nextF_eq_next fuel _ hs'
              have hds : (NodeIterS.mk (none : Option (K × V)) (c :: rest)
                    (some child)).denote
                  = (NodeIterS.mk (none : Option (K × V)) rest (some c.iterS)).denote := by
                rw [NodeIterS.denote_some, NodeIterS.denote_some, hde, Node.denote_iterS,
                  Node.toListPile_cons]
                simp
              obtain ⟨ihn', ihs'⟩ := ih _ hs'
              constructor
              · intro h
                rw [hn] at h
                rw [hds]
                exact ihn' h
              · intro x s' h
                rw [hn] at h
                obtain ⟨hd', hsz'⟩ := ihs' x s' h
                refine ⟨by rw [hds, hd'], ?_⟩
                omega
        | none =>
          cases cs with
          | nil =>
            have hn : (NodeIterS.mk (none : Option (K × V)) []
                  (none : Option (NodeIterS K V))).next = none := by
              rw [← NodeIterS.nextF_eq_next (fuel + 1) _ hs, NodeIterS.nextF_succ_cc_none]
            constructor
            · intro _
              rw [NodeIterS.denote_none, Node.toListPile_nil]
              rfl
            · intro x s' h
              rw [hn] at h
              cases h
          | cons c rest =>
            have hstep := NodeIterS.size_step c rest (none : Option (NodeIterS K V))
            have hs' : (NodeIterS.mk none rest (some c.iterS) : NodeIterS K V).size
                ≤ fuel := by
              have h2 : (NodeIterS.mk (none : Option (K × V)) (c :: rest)
                  (none : Option (NodeIterS K V))).size ≤ fuel + 1 := hs
              omega
            have hn : (NodeIterS.mk (none : Option (K × V)) (c :: rest)
                  (none : Option (NodeIterS K V))).next
                = (NodeIterS.mk none rest (some c.iterS) : NodeIterS K V).next := by
              rw [← NodeIterS.nextF_eq_next (fuel + 1) _ hs, NodeIterS.nextF_succ_cc_none]
              show NodeIterS.nextF fuel (NodeIterS.mk none rest (some c.iterS))
                = (NodeIterS.mk none rest (some c.iterS) : NodeIterS K V).next
              exact NodeIterS.nextF_eq_next fuel _ hs'
            have hds : (NodeIterS.mk (none : Option (K × V)) (c :: rest)
                  (none : Option (NodeIterS K V))).denote
                = (NodeIterS.mk (none : Option (K × V)) rest (some c.iterS)).denote := by
              rw [NodeIterS.denote_none, NodeIterS.denote_some, Node.denote_iterS,
                Node.toListPile_cons]
              simp
            obtain ⟨ihn', ihs'⟩ := ih _ hs'
            constructor
            · intro h
              rw [hn] at h
              rw [hds]
              exact ihn' h
            · intro x s' h
              rw [hn] at h
              obtain ⟨hd', hsz'⟩ := ihs' x s' h
              refine ⟨by rw [hds, hd'], ?_⟩
              omega

theorem NodeIterS.next_none_denote {K V : Type} {s : NodeIterS K V}
    (h : s.next = none) : s.denote = [] :=
  (NodeIterS.next_spec s.size s (le_refl _)).1 h

theorem NodeIterS.next_some_denote {K V : Type} {s : NodeIterS K V} {x : K × V}
    {s' : NodeIterS K V} (h : s.next = some (x, s')) :
    s.denote = x :: s'.denote ∧ s'.size < s.size :=
  (NodeIterS.next_spec s.size s (le_refl _)).2 x s' h

theorem NodeIterS.runF_denote {K V : Type} :
    ∀ (fuel : Nat) (s : NodeIterS K V), s.size ≤ fuel →
      NodeIterS.runF fuel s = s.denote := by
  intro fuel
  induction fuel with
  | zero =>
    intro s hs
    have := NodeIterS.size_positive s
    omega
  | succ fuel ih =>
    intro s hs
    rw [NodeIterS.runF]
    cases hn : s.next with
    | none => rw [NodeIterS.next_none_denote hn]
    | some r =>
      obtain ⟨hd, hsz⟩ := NodeIterS.next_some_denote hn
      show r.1 :: NodeIterS.runF fuel r.2 = s.denote
      rw [ih r.2 (by omega), hd]

theorem NodeIterS.run_denote {K V : Type} (s : NodeIterS K V) : s.run = s.denote :=
  NodeIterS.runF_denote s.size s (le_refl _)

theorem Node.run_iterS {K V : Type} (n : Node K V) : (n.iterS).run = n.toList := by
  rw [NodeIterS.run_denote, Node.denote_iterS]

end Pfx

namespace Pfx

theorem Iter.next_eq {K V : Type} (st : Iter K V) :
    Iter.next st
      = match st.iter.next with
        | none => none
        | some (x, it') => some (x, ⟨it', st.len - 1⟩) := rfl

theorem Iter.runF_eq {K V : Type} :
    ∀ (fuel : Nat) (st : Iter K V), Iter.runF fuel st = NodeIterS.runF fuel st.iter := by
  intro fuel
  induction fuel with
  | zero => intro st; rfl
  | succ fuel ih =>
    intro st
    rw [Iter.runF, NodeIterS.runF, Iter.next_eq]
    cases hn : st.iter.next with
    | none => rfl
    | some r =>
      show r.1 :: Iter.runF fuel ⟨r.2, st.len - 1⟩ = r.1 :: NodeIterS.runF fuel r.2
      rw [ih ⟨r.2, st.len - 1⟩]

theorem Iter.run_iter {K V : Type} (st : Iter K V) : st.run = st.iter.run := by
  rw [Iter.run, NodeIterS.run, Iter.runF_eq]

theorem Iter.run_as_denote {K V : Type} (st : Iter K V) : st.run = st.iter.denote := by
  rw [Iter.run_iter, NodeIterS.run_denote]

theorem Keys.runF_map_fst {K V : Type} :
    ∀ (fuel : Nat) (st : Iter K V),
      Keys.runF fuel st = (Iter.runF fuel st).map Prod.fst := by
  intro fuel
  induction fuel with
  | zero => intro st; rfl
  | succ fuel ih =>
    intro st
    rw [Keys.runF, Iter.runF, Keys.next]
    cases hn : Iter.next st with
    | none => rfl
    | some r =>
      show r.1.1 :: Keys.runF fuel r.2 = ((r.1 :: Iter.runF fuel r.2).map Prod.fst)
      rw [ih r.2, List.map_cons]

theorem Keys.run_map_fst {K V : Type} (st : Iter K V) :
    Keys.run st = (Iter.run st).map Prod.fst := by
  rw [Keys.run, Iter.run, Keys.runF_map_fst]

theorem Values.runF_map_snd {K V : Type} :
    ∀ (fuel : Nat) (st : Iter K V),
      Values.runF fuel st = (Iter.runF fuel st).map Prod.snd := by
  intro fuel
  induction fuel with
  | zero => intro st; rfl
  | succ fuel ih =>
    intro st
    rw [Values.runF, Iter.runF, Values.next]
    cases hn : Iter.next st with
    | none => rfl
    | some r =>
      show r.1.2 :: Values.runF fuel r.2 = ((r.1 :: Iter.runF fuel r.2).map Prod.snd)
      rw [ih r.2, List.map_cons]

theorem Values.run_map_snd {K V : Type} (st : Iter K V) :
    Values.run st = (Iter.run st).map Prod.snd := by
  rw [Values.run, Iter.run, Values.runF_map_snd]

theorem PrefixTreeMap.iter_run {K V : Type} (m : PrefixTreeMap K V) :
    (m.iter).run = m.root.toList := by
  rw [PrefixTreeMap.iter, Iter.run_iter]
  exact Node.run_iterS m.root

theorem Iter.next_some_parts {K V : Type} {st : Iter K V} {x : K × V} {st' : Iter K V}
    (h : Iter.next st = some (x, st')) :
    st.iter.next = some (x, st'.iter) ∧ st'.len = st.len - 1 := by
  rw [Iter.next_eq] at h
  cases hn : st.iter.next with
  | none => rw [hn] at h; cases h
  | some r =>
    rw [hn] at h
    cases h
    exact ⟨rfl, rfl⟩

theorem Iter.next_none_run {K V : Type} {st : Iter K V}
    (h : Iter.next st = none) : st.run = [] := by
  rw [Iter.next_eq] at h
  cases hn : st.iter.next with
  | some r => rw [hn] at h; cases h
  | none =>
    rw [Iter.run_as_denote, NodeIterS.next_none_denote hn]

theorem Iter.next_some_run {K V : Type} {st : Iter K V} {x : K × V} {st' : Iter K V}
    (h : Iter.next st = some (x, st')) : st.run = x :: st'.run := by
  obtain ⟨hn, _⟩ := Iter.next_some_parts h
  obtain ⟨hd, _⟩ := NodeIterS.next_some_denote hn
  rw [Iter.run_as_denote, Iter.run_as_denote, hd]

/-- The remaining-length report is exact and stays exact across `next`. -/
theorem Iter.len_invariant {K V : Type} {st : Iter K V} (hlen : st.len = st.run.length)
    {x : K × V} {st' : Iter K V} (h : Iter.next st = some (x, st')) :
    st'.len = st'.run.length := by
  have hrun := Iter.next_some_run h
  obtain ⟨_, hl⟩ := Iter.next_some_parts h
  rw [hl, hlen, hrun]
  simp

end Pfx

/-! ## Map-level lemmas for the public operations -/

namespace Pfx

theorem PrefixTreeMap.insert_root {K V : Type} (kb : K → List Nat) (m : PrefixTreeMap K V)
    (key : K) (value : V) :
    (PrefixTreeMap.insert kb m key value).1.root
      = (m.root.updateAt
          (fun slot =>
            match slot with
            | none => (some (key, value), none)
            | some kv => (some (kv.1, value), some kv.2))
          (kb key)).1 := rfl

theorem PrefixTreeMap.insert_slot_self {K V : Type} (kb : K → List Nat)
    (m : PrefixTreeMap K V) (key : K) (value : V) (hs : m.root.sortedB = true) :
    (PrefixTreeMap.insert kb m key value).1.root.slotAt (kb key)
      = some ((match m.root.slotAt (kb key) with
               | none => key
               | some kv => kv.1), value) := by
  rw [PrefixTreeMap.insert_root, Node.updateAt_slotAt_self _ _ _ hs]
  cases m.root.slotAt (kb key) with
  | none => rfl
  | some kv => rfl

theorem PrefixTreeMap.insert_get_self {K V : Type} (kb : K → List Nat)
    (m : PrefixTreeMap K V) (key : K) (value : V) (hs : m.root.sortedB = true) :
    (PrefixTreeMap.insert kb m key value).1.get (kb key) = some value := by
  rw [PrefixTreeMap.get_eq_slot, PrefixTreeMap.insert_slot_self kb m key value hs]
  rfl

theorem PrefixTreeMap.insert_snd {K V : Type} (kb : K → List Nat)
    (m : PrefixTreeMap K V) (key : K) (value : V) (hs : m.root.sortedB = true) :
    (PrefixTreeMap.insert kb m key value).2 = m.get (kb key) := by
  show (m.root.updateAt _ (kb key)).2 = _
  rw [Node.updateAt_snd _ _ _ hs, PrefixTreeMap.get_eq_slot]
  cases m.root.slotAt (kb key) with
  | none => rfl
  | some kv => rfl

theorem PrefixTreeMap.insert_slot_ne {K V : Type} (kb : K → List Nat)
    (m : PrefixTreeMap K V) (key : K) (value : V) (hs : m.root.sortedB = true)
    (q : List Nat) (hq : q ≠ kb key) :
    (PrefixTreeMap.insert kb m key value).1.root.slotAt q = m.root.slotAt q := by
  rw [PrefixTreeMap.insert_root]
  exact Node.updateAt_slotAt_ne _ _ _ q hs hq

theorem PrefixTreeMap.insert_sortedB {K V : Type} (kb : K → List Nat)
    (m : PrefixTreeMap K V) (key : K) (value : V) (hs : m.root.sortedB = true) :
    (PrefixTreeMap.insert kb m key value).1.root.sortedB = true := by
  rw [PrefixTreeMap.insert_root]
  exact Node.updateAt_sortedB _ _ _ hs

theorem PrefixTreeMap.insert_len {K V : Type} (kb : K → List Nat)
    (m : PrefixTreeMap K V) (key : K) (value : V) :
    (PrefixTreeMap.insert kb m key value).1.len
      = match (PrefixTreeMap.insert kb m key value).2 with
        | none => m.len + 1
        | some _ => m.len := rfl

theorem PrefixTreeMap.insert_pathOkB {K V : Type} (kb : K → List Nat)
    (m : PrefixTreeMap K V) (key : K) (value : V) (hs : m.root.sortedB = true)
    (hp : m.root.pathOkB kb [] = true) :
    (PrefixTreeMap.insert kb m key value).1.root.pathOkB kb [] = true := by
  rw [PrefixTreeMap.insert_root]
  refine Node.updateAt_pathOkB kb _ (kb key) [] m.root hs hp ?_
  intro s hso kv hkv
  cases s with
  | none =>
    cases hkv
    simp
  | some kv₀ =>
    cases hkv
    have := hso kv₀ rfl
    simpa using this

theorem PrefixTreeMap.insert_count {K V : Type} (kb : K → List Nat)
    (m : PrefixTreeMap K V) (key : K) (value : V) (hs : m.root.sortedB = true) :
    (PrefixTreeMap.insert kb m key value).1.root.count
        + (if (m.root.slotAt (kb key)).isSome then 1 else 0)
      = m.root.count + 1 := by
  rw [PrefixTreeMap.insert_root]
  have := Node.updateAt_count
    (fun slot =>
      match slot with
      | none => (some (key, value), none)
      | some kv => (some (kv.1, value), some kv.2))
    (kb key) m.root hs
  cases hsl : m.root.slotAt (kb key) with
  | none =>
    rw [hsl] at this
    simpa using this
  | some kv =>
    rw [hsl] at this
    simpa using this

theorem PrefixTreeMap.insert_Inv {K V : Type} (kb : K → List Nat)
    (m : PrefixTreeMap K V) (key : K) (value : V) (h : m.Inv) :
    (PrefixTreeMap.insert kb m key value).1.Inv := by
  obtain ⟨hs, hlen⟩ := h
  refine ⟨PrefixTreeMap.insert_sortedB kb m key value hs, ?_⟩
  have hcnt := PrefixTreeMap.insert_count kb m key value hs
  have hsnd := PrefixTreeMap.insert_snd kb m key value hs
  rw [PrefixTreeMap.insert_len, hsnd, PrefixTreeMap.get_eq_slot]
  cases hsl : m.root.slotAt (kb key) with
  | none =>
    rw [hsl] at hcnt
    simp only [Option.isSome_none, Bool.false_eq_true, if_false] at hcnt
    show m.len + 1 = (PrefixTreeMap.insert kb m key value).1.root.count
    omega
  | some kv =>
    rw [hsl] at hcnt
    simp only [Option.isSome_some, if_true] at hcnt
    show m.len = (PrefixTreeMap.insert kb m key value).1.root.count
    omega

theorem PrefixTreeMap.insert_WF {K V : Type} (kb : K → List Nat)
    (m : PrefixTreeMap K V) (key : K) (value : V) (h : m.WF kb) :
    (PrefixTreeMap.insert kb m key value).1.WF kb := by
  obtain ⟨hs, hp, hlen⟩ := h
  have hInv := PrefixTreeMap.insert_Inv kb m key value ⟨hs, hlen⟩
  exact ⟨hInv.1, PrefixTreeMap.insert_pathOkB kb m key value hs hp, hInv.2⟩

end Pfx

namespace Pfx

theorem Node.updateAt_pathExists {K V α : Type} (f : Option (K × V) → Option (K × V) × α) :
    ∀ (p : List Nat) (n : Node K V), n.sortedB = true →
      ((n.updateAt f p).1.search p).isSome = true := by
  intro p
  induction p with
  | nil => intro n hs; rw [Node.updateAt_nil, Node.search_nil]; rfl
  | cons b bs ih =>
    intro n hs
    have hs' := Node.updateAt_sortedB f (b :: bs) n hs
    rw [Node.search_cons _ b bs hs', Node.updateAt_child? f hs b bs b, if_pos rfl]
    cases hc : n.child? b with
    | some c =>
      exact ih c (Node.sortedB_children hs c (Node.child?_mem hc))
    | none =>
      exact ih (Node.with_key_fragment b) (Node.with_key_fragment_sortedB b)

theorem Node.updateAt_id_of_pathExists {K V α : Type}
    (f : Option (K × V) → Option (K × V) × α) (hf : ∀ s, (f s).1 = s) :
    ∀ (p : List Nat) (n : Node K V), n.sortedB = true →
      (n.search p).isSome = true → (n.updateAt f p).1 = n := by
  intro p
  induction p with
  | nil =>
    intro n hs _
    rw [Node.updateAt_nil, hf, Node.eta]
  | cons b bs ih =>
    intro n hs hex
    cases h : n.childSearch b with
    | error i =>
      exfalso
      rw [Node.search, h] at hex
      cases hex
    | ok i =>
      obtain ⟨hi, _⟩ := Node.childSearch_ok h
      have hmem : n.children.getD i n ∈ n.children := by
        rw [List.getD_eq_getElem _ _ hi]
        exact List.getElem_mem hi
      have hex' : ((n.children.getD i n).search bs).isSome = true := by
        rw [Node.search, h] at hex
        exact hex
      rw [Node.updateAt_cons_ok f bs h,
        ih _ (Node.sortedB_children hs _ hmem) hex', set_getD_self _ i _ hi, Node.eta]

theorem PrefixTreeMap.entryProbe_root {K V : Type} (kb : K → List Nat)
    (m : PrefixTreeMap K V) (key : K) :
    (PrefixTreeMap.entryProbe kb m key).1.root
      = (m.root.updateAt (fun slot => (slot, slot.isNone)) (kb key)).1 := rfl

theorem PrefixTreeMap.entryProbe_len {K V : Type} (kb : K → List Nat)
    (m : PrefixTreeMap K V) (key : K) :
    (PrefixTreeMap.entryProbe kb m key).1.len = m.len := rfl

theorem PrefixTreeMap.entryProbe_vacant {K V : Type} (kb : K → List Nat)
    (m : PrefixTreeMap K V) (key : K) (hs : m.root.sortedB = true) :
    (PrefixTreeMap.entryProbe kb m key).2 = (m.root.slotAt (kb key)).isNone := by
  show (m.root.updateAt _ (kb key)).2 = _
  rw [Node.updateAt_snd _ _ _ hs]

theorem PrefixTreeMap.entryProbe_slot {K V : Type} (kb : K → List Nat)
    (m : PrefixTreeMap K V) (key : K) (hs : m.root.sortedB = true) (q : List Nat) :
    (PrefixTreeMap.entryProbe kb m key).1.root.slotAt q = m.root.slotAt q := by
  rw [PrefixTreeMap.entryProbe_root]
  by_cases hq : q = kb key
  · subst hq
    rw [Node.updateAt_slotAt_self _ _ _ hs]
  · exact Node.updateAt_slotAt_ne _ _ _ q hs hq

theorem PrefixTreeMap.entryProbe_sortedB {K V : Type} (kb : K → List Nat)
    (m : PrefixTreeMap K V) (key : K) (hs : m.root.sortedB = true) :
    (PrefixTreeMap.entryProbe kb m key).1.root.sortedB = true := by
  rw [PrefixTreeMap.entryProbe_root]
  exact Node.updateAt_sortedB _ _ _ hs

theorem PrefixTreeMap.entryProbe_count {K V : Type} (kb : K → List Nat)
    (m : PrefixTreeMap K V) (key : K) (hs : m.root.sortedB = true) :
    (PrefixTreeMap.entryProbe kb m key).1.root.count = m.root.count := by
  rw [PrefixTreeMap.entryProbe_root]
  have h := Node.updateAt_count (fun slot => (slot, slot.isNone)) (kb key) m.root hs
  have h2 : ((fun (slot : Option (K × V)) => (slot, slot.isNone))
      (m.root.slotAt (kb key))).1 = m.root.slotAt (kb key) := rfl
  rw [h2] at h
  omega

theorem PrefixTreeMap.entryProbe_pathOkB {K V : Type} (kb : K → List Nat)
    (m : PrefixTreeMap K V) (key : K) (hs : m.root.sortedB = true)
    (hp : m.root.pathOkB kb [] = true) :
    (PrefixTreeMap.entryProbe kb m key).1.root.pathOkB kb [] = true := by
  rw [PrefixTreeMap.entryProbe_root]
  refine Node.updateAt_pathOkB kb _ (kb key) [] m.root hs hp ?_
  intro s hso kv hkv
  exact hso kv hkv

theorem PrefixTreeMap.entryProbe_idem {K V : Type} (kb : K → List Nat)
    (m : PrefixTreeMap K V) (key : K) (hs : m.root.sortedB = true) :
    (PrefixTreeMap.entryProbe kb (PrefixTreeMap.entryProbe kb m key).1 key).1
      = (PrefixTreeMap.entryProbe kb m key).1 := by
  have h1 : (PrefixTreeMap.entryProbe kb m key).1.root.sortedB = true :=
    PrefixTreeMap.entryProbe_sortedB kb m key hs
  have h2 : ((PrefixTreeMap.entryProbe kb m key).1.root.search (kb key)).isSome = true := by
    rw [PrefixTreeMap.entryProbe_root]
    exact Node.updateAt_pathExists _ (kb key) m.root hs
  show (⟨(Node.updateAt (fun slot => (slot, slot.isNone))
        (PrefixTreeMap.entryProbe kb m key).1.root (kb key)).1,
      (PrefixTreeMap.entryProbe kb m key).1.len⟩ : PrefixTreeMap K V)
    = (PrefixTreeMap.entryProbe kb m key).1
  rw [Node.updateAt_id_of_pathExists _ (fun s => rfl) (kb key) _ h1 h2]

theorem PrefixTreeMap.remove_eq {K V : Type} (m : PrefixTreeMap K V) (key : List Nat) :
    m.remove key = ((m.remove_entry key).1.map (fun kv => kv.2), (m.remove_entry key).2) := rfl

theorem PrefixTreeMap.remove_entry_absent {K V : Type} (m : PrefixTreeMap K V)
    (key : List Nat) (hs : m.root.sortedB = true)
    (h : m.contains_key key = false) : m.remove_entry key = (none, m) := by
  rw [PrefixTreeMap.contains_key_eq_slot] at h
  have hsl : m.root.slotAt key = none := by
    cases hsl : m.root.slotAt key with
    | none => rfl
    | some kv => rw [hsl] at h; cases h
  have ht : m.root.takeItemAt key = none :=
    (Node.takeItemAt_none_iff key m.root hs).mpr hsl
  rw [PrefixTreeMap.remove_entry, ht]

end Pfx

namespace Pfx

theorem PrefixTreeMap.remove_Inv {K V : Type} (m : PrefixTreeMap K V) (key : List Nat)
    (h : m.Inv) : (m.remove key).2.Inv := by
  obtain ⟨hs, hlen⟩ := h
  rw [PrefixTreeMap.remove_eq, PrefixTreeMap.remove_entry]
  cases ht : m.root.takeItemAt key with
  | none => exact ⟨hs, hlen⟩
  | some r =>
    obtain ⟨rkv, rroot⟩ := r
    obtain ⟨_, _, _, hsort, hcnt, _, _⟩ :=
      Node.takeItemAt_some_spec key m.root rkv rroot hs ht
    refine ⟨hsort, ?_⟩
    show m.len - 1 = rroot.count
    omega

theorem PrefixTreeMap.remove_WF {K V : Type} (kb : K → List Nat) (m : PrefixTreeMap K V)
    (key : List Nat) (h : m.WF kb) : (m.remove key).2.WF kb := by
  obtain ⟨hs, hp, hlen⟩ := h
  rw [PrefixTreeMap.remove_eq, PrefixTreeMap.remove_entry]
  cases ht : m.root.takeItemAt key with
  | none => exact ⟨hs, hp, hlen⟩
  | some r =>
    obtain ⟨rkv, rroot⟩ := r
    obtain ⟨_, _, _, hsort, hcnt, _, hpath⟩ :=
      Node.takeItemAt_some_spec key m.root rkv rroot hs ht
    refine ⟨hsort, hpath kb [] hp, ?_⟩
    show m.len - 1 = rroot.count
    omega

theorem PrefixTreeMap.symStep_root {K V : Type} (kb : K → List Nat)
    (m : PrefixTreeMap K V) (kv : K × V) :
    (PrefixTreeMap.symStep kb m kv).root
      = (m.root.updateAt
          (fun slot =>
            match slot with
            | none => (some kv, false)
            | some _ => (none, true))
          (kb kv.1)).1 := rfl

theorem PrefixTreeMap.symStep_slot_self {K V : Type} (kb : K → List Nat)
    (m : PrefixTreeMap K V) (kv : K × V) (hs : m.root.sortedB = true) :
    (PrefixTreeMap.symStep kb m kv).root.slotAt (kb kv.1)
      = match m.root.slotAt (kb kv.1) with
        | none => some kv
        | some _ => none := by
  rw [PrefixTreeMap.symStep_root, Node.updateAt_slotAt_self _ _ _ hs]
  cases m.root.slotAt (kb kv.1) with
  | none => rfl
  | some kv₀ => rfl

theorem PrefixTreeMap.symStep_slot_ne {K V : Type} (kb : K → List Nat)
    (m : PrefixTreeMap K V) (kv : K × V) (hs : m.root.sortedB = true)
    (q : List Nat) (hq : q ≠ kb kv.1) :
    (PrefixTreeMap.symStep kb m kv).root.slotAt q = m.root.slotAt q := by
  rw [PrefixTreeMap.symStep_root]
  exact Node.updateAt_slotAt_ne _ _ _ q hs hq

theorem PrefixTreeMap.symStep_sortedB {K V : Type} (kb : K → List Nat)
    (m : PrefixTreeMap K V) (kv : K × V) (hs : m.root.sortedB = true) :
    (PrefixTreeMap.symStep kb m kv).root.sortedB = true := by
  rw [PrefixTreeMap.symStep_root]
  exact Node.updateAt_sortedB _ _ _ hs

theorem PrefixTreeMap.symStep_pathOkB {K V : Type} (kb : K → List Nat)
    (m : PrefixTreeMap K V) (kv : K × V) (hs : m.root.sortedB = true)
    (hp : m.root.pathOkB kb [] = true) :
    (PrefixTreeMap.symStep kb m kv).root.pathOkB kb [] = true := by
  rw [PrefixTreeMap.symStep_root]
  refine Node.updateAt_pathOkB kb _ (kb kv.1) [] m.root hs hp ?_
  intro s hso kv' hkv'
  cases s with
  | none =>
    cases hkv'
    simp
  | some kv₀ => cases hkv'

theorem PrefixTreeMap.symStep_Inv {K V : Type} (kb : K → List Nat)
    (m : PrefixTreeMap K V) (kv : K × V) (h : m.Inv) :
    (PrefixTreeMap.symStep kb m kv).Inv := by
  obtain ⟨hs, hlen⟩ := h
  refine ⟨PrefixTreeMap.symStep_sortedB kb m kv hs, ?_⟩
  have hcnt := Node.updateAt_count
    (fun slot =>
      match slot with
      | none => (some kv, false)
      | some _ => (none, true))
    (kb kv.1) m.root hs
  have hsnd := Node.updateAt_snd
    (fun slot =>
      match slot with
      | none => (some kv, false)
      | some _ => (none, true))
    (kb kv.1) m.root hs
  show (if (m.root.updateAt
        (fun slot =>
          match slot with
          | none => (some kv, false)
          | some _ => (none, true))
        (kb kv.1)).2 then m.len - 1 else m.len + 1)
    = (PrefixTreeMap.symStep kb m kv).root.count
  rw [hsnd, PrefixTreeMap.symStep_root]
  cases hsl : m.root.slotAt (kb kv.1) with
  | none =>
    rw [hsl] at hcnt
    show m.len + 1 = _
    simp only [Option.isSome_none, Option.isSome_some, Bool.false_eq_true, if_false,
      if_true] at hcnt
    omega
  | some kv₀ =>
    rw [hsl] at hcnt
    show m.len - 1 = _
    simp only [Option.isSome_none, Option.isSome_some, Bool.false_eq_true, if_false,
      if_true] at hcnt
    omega

theorem PrefixTreeMap.symStep_WF {K V : Type} (kb : K → List Nat)
    (m : PrefixTreeMap K V) (kv : K × V) (h : m.WF kb) :
    (PrefixTreeMap.symStep kb m kv).WF kb := by
  obtain ⟨hs, hp, hlen⟩ := h
  have hInv := PrefixTreeMap.symStep_Inv kb m kv ⟨hs, hlen⟩
  exact ⟨hInv.1, PrefixTreeMap.symStep_pathOkB kb m kv hs hp, hInv.2⟩

theorem PrefixTreeMap.compact_root {K V : Type} (m : PrefixTreeMap K V) :
    m.compact.root = (m.root.compact).1 := rfl

theorem PrefixTreeMap.compact_len {K V : Type} (m : PrefixTreeMap K V) :
    m.compact.len = m.len := rfl

theorem PrefixTreeMap.compact_Inv {K V : Type} (m : PrefixTreeMap K V) (h : m.Inv) :
    m.compact.Inv := by
  obtain ⟨hs, hlen⟩ := h
  refine ⟨Node.compact_sortedB m.root hs, ?_⟩
  rw [PrefixTreeMap.compact_len, PrefixTreeMap.compact_root, Node.compact_count]
  exact hlen

end Pfx

/-! ## Compaction is insensitive to slot-preserving traversals -/

namespace Pfx

theorem Node.compactPile_set_congr {K V : Type} :
    ∀ (cs : List (Node K V)) (i : Nat) (c' : Node K V) (hi : i < cs.length),
      c'.compact = cs[i].compact →
      Node.compactPile (cs.set i c') = Node.compactPile cs := by
  intro cs
  induction cs with
  | nil => intro i c' hi; simp at hi
  | cons c rest ih =>
    intro i c' hi hc
    cases i with
    | zero =>
      rw [List.set_cons_zero, Node.compactPile_cons, Node.compactPile_cons]
      simp only [List.getElem_cons_zero] at hc
      rw [hc]
    | succ i =>
      rw [List.set_cons_succ, Node.compactPile_cons, Node.compactPile_cons,
        ih i c' (by simpa using hi) (by simpa using hc)]

theorem Node.compactPile_insertIdx_useless {K V : Type} (c : Node K V)
    (hc : (c.compact).2 = false) :
    ∀ (cs : List (Node K V)) (i : Nat),
      Node.compactPile (cs.insertIdx i c) = Node.compactPile cs := by
  intro cs
  induction cs with
  | nil =>
    intro i
    cases i with
    | zero =>
      rw [List.insertIdx_zero, Node.compactPile_cons, hc, Node.compactPile_nil]
      simp
    | succ i => rfl
  | cons c₀ rest ih =>
    intro i
    cases i with
    | zero =>
      rw [List.insertIdx_zero, Node.compactPile_cons, hc]
      simp
    | succ i =>
      rw [List.insertIdx_succ_cons, Node.compactPile_cons, Node.compactPile_cons, ih i]

theorem Node.updateAt_fresh_compact_flag {K V α : Type}
    (f : Option (K × V) → Option (K × V) × α) (hf : (f none).1 = none) :
    ∀ (bs : List Nat) (b : Nat),
      (((Node.with_key_fragment b : Node K V).updateAt f bs).1.compact).2 = false := by
  intro bs
  induction bs with
  | nil =>
    intro b
    rw [Node.updateAt_nil]
    show ((Node.mk (f none).1 b []).compact).2 = false
    rw [hf]
    rfl
  | cons b' bs' ih =>
    intro b
    have hcs : (Node.with_key_fragment b : Node K V).childSearch b' = Except.error 0 := rfl
    rw [Node.updateAt_cons_err f bs' hcs]
    show ((Node.mk none b
        (([] : List (Node K V)).insertIdx 0
          ((Node.with_key_fragment b' : Node K V).updateAt f bs').1)).compact).2
      = false
    rw [List.insertIdx_zero, Node.compact_mk, Node.compactPile_cons, Node.compactPile_nil,
      ih b']
    rfl

/-- A traversal that reads but never changes any item slot leaves the
compacted form of the tree unchanged: the empty nodes it may create are
exactly what `compact` removes. -/
theorem Node.updateAt_compact {K V α : Type}
    (f : Option (K × V) → Option (K × V) × α) (hf : ∀ s, (f s).1 = s) :
    ∀ (p : List Nat) (n : Node K V), ((n.updateAt f p).1).compact = n.compact := by
  intro p
  induction p with
  | nil =>
    intro n
    rw [Node.updateAt_nil]
    show ((Node.mk (f n.item).1 n.key_fragment n.children).compact) = n.compact
    rw [hf, Node.eta]
  | cons b bs ih =>
    intro n
    cases h : n.childSearch b with
    | ok i =>
      obtain ⟨hi, _⟩ := Node.childSearch_ok h
      rw [Node.updateAt_cons_ok f bs h]
      show ((Node.mk n.item n.key_fragment
          (n.children.set i ((n.children.getD i n).updateAt f bs).1)).compact) = n.compact
      conv_rhs => rw [← Node.eta n]
      rw [Node.compact_mk, Node.compact_mk,
        Node.compactPile_set_congr n.children i _ hi
          (by rw [ih (n.children.getD i n), List.getD_eq_getElem _ _ hi])]
    | error i =>
      rw [Node.updateAt_cons_err f bs h]
      show ((Node.mk n.item n.key_fragment
          (n.children.insertIdx i ((Node.with_key_fragment b).updateAt f bs).1)).compact)
        = n.compact
      conv_rhs => rw [← Node.eta n]
      rw [Node.compact_mk, Node.compact_mk,
        Node.compactPile_insertIdx_useless _
          (Node.updateAt_fresh_compact_flag f (hf none) bs b) n.children i]

/-- Probing the entry API and then compacting gives exactly the compacted
original map: spurious nodes are invisible after `compact`. -/
theorem PrefixTreeMap.entryProbe_compact {K V : Type} (kb : K → List Nat)
    (m : PrefixTreeMap K V) (key : K) :
    ((PrefixTreeMap.entryProbe kb m key).1).compact = m.compact := by
  show (⟨(((m.root.updateAt (fun slot => (slot, slot.isNone)) (kb key)).1).compact).1, m.len⟩
      : PrefixTreeMap K V)
    = ⟨(m.root.compact).1, m.len⟩
  rw [Node.updateAt_compact (fun slot => (slot, slot.isNone)) (fun s => rfl) (kb key) m.root]

theorem PrefixTreeMap.compact_idem_map {K V : Type} (m : PrefixTreeMap K V) :
    m.compact.compact = m.compact := by
  show (⟨(((m.root.compact).1).compact).1, m.len⟩ : PrefixTreeMap K V)
    = ⟨(m.root.compact).1, m.len⟩
  rw [Node.compact_idem]

end Pfx

/-! ## The item slot determines the stored key's bytes -/

namespace Pfx

theorem Node.slotAt_key_bytes {K V : Type} (kb : K → List Nat) {n : Node K V}
    {p : List Nat} {kv : K × V} (hs : n.sortedB = true)
    (hp : Node.pathOkB kb [] n = true) (hsl : n.slotAt p = some kv) :
    kb kv.1 = p := by
  have hf := Node.toList_filter_exact kb p [] n hs hp
  rw [hsl] at hf
  have hm : kv ∈ n.toList.filter (fun kv' => kb kv'.1 == [] ++ p) := by
    rw [hf]
    exact List.mem_singleton_self kv
  have := List.of_mem_filter hm
  simpa using this

end Pfx

/-! ## Fold-level preservation lemmas for the bulk set operations -/

namespace Pfx

theorem PrefixTreeMap.new_Inv {K V : Type} : (PrefixTreeMap.new : PrefixTreeMap K V).Inv :=
  ⟨rfl, rfl⟩

theorem PrefixTreeMap.symdiff_in_place_nil {K V : Type} (kb : K → List Nat)
    (m : PrefixTreeMap K V) :
    PrefixTreeMap.symmetric_difference_in_place kb m [] = m := rfl

theorem PrefixTreeMap.symdiff_in_place_cons {K V : Type} (kb : K → List Nat)
    (m : PrefixTreeMap K V) (kv : K × V) (rest : List (K × V)) :
    PrefixTreeMap.symmetric_difference_in_place kb m (kv :: rest)
      = PrefixTreeMap.symmetric_difference_in_place kb (PrefixTreeMap.symStep kb m kv) rest := rfl

theorem PrefixTreeMap.symdiff_Inv {K V : Type} (kb : K → List Nat) :
    ∀ (other : List (K × V)) (m : PrefixTreeMap K V), m.Inv →
      (PrefixTreeMap.symmetric_difference_in_place kb m other).Inv := by
  intro other
  induction other with
  | nil => intro m h; exact h
  | cons kv rest ih =>
    intro m h
    rw [PrefixTreeMap.symdiff_in_place_cons]
    exact ih (PrefixTreeMap.symStep kb m kv) (PrefixTreeMap.symStep_Inv kb m kv h)

theorem PrefixTreeMap.symdiff_slot {K V : Type} (kb : K → List Nat) :
    ∀ (other : List (K × V)) (m : PrefixTreeMap K V), m.root.sortedB = true →
      (other.map (fun kv => kb kv.1)).Nodup →
      ∀ q, (PrefixTreeMap.symmetric_difference_in_place kb m other).root.slotAt q
        = match other.find? (fun kv => kb kv.1 == q) with
          | none => m.root.slotAt q
          | some kv =>
            match m.root.slotAt q with
            | none => some kv
            | some _ => none := by
  intro other
  induction other with
  | nil => intro m hs hnd q; rfl
  | cons kv rest ih =>
    intro m hs hnd q
    rw [PrefixTreeMap.symdiff_in_place_cons]
    rw [List.map_cons, List.nodup_cons] at hnd
    obtain ⟨hnot, hndr⟩ := hnd
    have hs' := PrefixTreeMap.symStep_sortedB kb m kv hs
    by_cases hq : kb kv.1 = q
    · have hfind : (kv :: rest).find? (fun kv' => kb kv'.1 == q) = some kv :=
        List.find?_cons_of_pos _ (by simp [hq])
      rw [hfind]
      have hrest : rest.find? (fun kv' => kb kv'.1 == q) = none := by
        rw [List.find?_eq_none]
        intro x hx hbeq
        apply hnot
        rw [List.mem_map]
        refine ⟨x, hx, ?_⟩
        have : kb x.1 = q := by simpa using hbeq
        rw [this, hq]
      have hih := ih (PrefixTreeMap.symStep kb m kv) hs' hndr q
      rw [hrest] at hih
      rw [hih]
      subst hq
      rw [PrefixTreeMap.symStep_slot_self kb m kv hs]
    · have hfind : (kv :: rest).find? (fun kv' => kb kv'.1 == q)
          = rest.find? (fun kv' => kb kv'.1 == q) :=
        List.find?_cons_of_neg _ (by simp [hq])
      rw [hfind]
      have hih := ih (PrefixTreeMap.symStep kb m kv) hs' hndr q
      rw [PrefixTreeMap.symStep_slot_ne kb m kv hs q (fun he => hq he.symm)] at hih
      exact hih

theorem PrefixTreeMap.union_in_place_cons {K V : Type} (kb : K → List Nat)
    (m : PrefixTreeMap K V) (kv : K × V) (rest : List (K × V)) :
    PrefixTreeMap.union_in_place kb m (kv :: rest)
      = PrefixTreeMap.union_in_place kb (PrefixTreeMap.insert kb m kv.1 kv.2).1 rest := rfl

theorem PrefixTreeMap.union_Inv {K V : Type} (kb : K → List Nat) :
    ∀ (other : List (K × V)) (m : PrefixTreeMap K V), m.Inv →
      (PrefixTreeMap.union_in_place kb m other).Inv := by
  intro other
  induction other with
  | nil => intro m h; exact h
  | cons kv rest ih =>
    intro m h
    rw [PrefixTreeMap.union_in_place_cons]
    exact ih _ (PrefixTreeMap.insert_Inv kb m kv.1 kv.2 h)

theorem PrefixTreeMap.difference_in_place_cons {K V : Type}
    (m : PrefixTreeMap K V) (q : List Nat) (rest : List (List Nat)) :
    PrefixTreeMap.difference_in_place m (q :: rest)
      = PrefixTreeMap.difference_in_place (m.remove q).2 rest := rfl

theorem PrefixTreeMap.difference_Inv {K V : Type} :
    ∀ (other : List (List Nat)) (m : PrefixTreeMap K V), m.Inv →
      (PrefixTreeMap.difference_in_place m other).Inv := by
  intro other
  induction other with
  | nil => intro m h; exact h
  | cons q rest ih =>
    intro m h
    rw [PrefixTreeMap.difference_in_place_cons]
    exact ih _ (PrefixTreeMap.remove_Inv m q h)

theorem PrefixTreeMap.interStep_none {K V : Type} (kb : K → List Nat)
    (st : PrefixTreeMap K V × PrefixTreeMap K V) (q : List Nat)
    (hr : (PrefixTreeMap.remove_entry st.1 q).1 = none) :
    PrefixTreeMap.interStep kb st q = ((PrefixTreeMap.remove_entry st.1 q).2, st.2) := by
  show (match (PrefixTreeMap.remove_entry st.1 q).1 with
    | none => ((PrefixTreeMap.remove_entry st.1 q).2, st.2)
    | some kv => ((PrefixTreeMap.remove_entry st.1 q).2,
        (PrefixTreeMap.insert kb st.2 kv.1 kv.2).1)) = _
  rw [hr]

theorem PrefixTreeMap.interStep_some {K V : Type} (kb : K → List Nat)
    (st : PrefixTreeMap K V × PrefixTreeMap K V) (q : List Nat) (kv : K × V)
    (hr : (PrefixTreeMap.remove_entry st.1 q).1 = some kv) :
    PrefixTreeMap.interStep kb st q
      = ((PrefixTreeMap.remove_entry st.1 q).2,
         (PrefixTreeMap.insert kb st.2 kv.1 kv.2).1) := by
  show (match (PrefixTreeMap.remove_entry st.1 q).1 with
    | none => ((PrefixTreeMap.remove_entry st.1 q).2, st.2)
    | some kv => ((PrefixTreeMap.remove_entry st.1 q).2,
        (PrefixTreeMap.insert kb st.2 kv.1 kv.2).1)) = _
  rw [hr]

theorem PrefixTreeMap.inter_fold_Inv {K V : Type} (kb : K → List Nat) :
    ∀ (other : List (List Nat)) (st : PrefixTreeMap K V × PrefixTreeMap K V),
      st.1.Inv → st.2.Inv →
      ((other.foldl (PrefixTreeMap.interStep kb) st).2).Inv := by
  intro other
  induction other with
  | nil => intro st h1 h2; exact h2
  | cons q rest ih =>
    intro st h1 h2
    rw [List.foldl_cons]
    have hrem : ((PrefixTreeMap.remove st.1 q).2).Inv := PrefixTreeMap.remove_Inv st.1 q h1
    cases hr : (PrefixTreeMap.remove_entry st.1 q).1 with
    | none =>
      rw [PrefixTreeMap.interStep_none kb st q hr]
      exact ih _ hrem h2
    | some kv =>
      rw [PrefixTreeMap.interStep_some kb st q kv hr]
      exact ih _ hrem (PrefixTreeMap.insert_Inv kb st.2 kv.1 kv.2 h2)

theorem PrefixTreeMap.intersection_Inv {K V : Type} (kb : K → List Nat)
    (m : PrefixTreeMap K V) (other : List (List Nat)) (h : m.Inv) :
    (PrefixTreeMap.intersection kb m other).Inv :=
  PrefixTreeMap.inter_fold_Inv kb other (m, PrefixTreeMap.new) h PrefixTreeMap.new_Inv

end Pfx

/-! ## The claims -/

namespace Pfx

/-- Claim C3 counterexample: the derived equality is structural, so a
spurious empty node created by the entry API makes a tree compare unequal
to a tree with identical populated items — the comparison result before
`compact()` (false) differs from the result after `compact()` (true), even
though the two maps hold exactly the same entries. -/
theorem claim_C3_cex :
    PrefixTreeMap.beq
        (PrefixTreeMap.entryProbe kbId (PrefixTreeMap.new : PrefixTreeMap (List Nat) Nat) [0]).1
        PrefixTreeMap.new = false
    ∧ PrefixTreeMap.beq
        ((PrefixTreeMap.entryProbe kbId (PrefixTreeMap.new : PrefixTreeMap (List Nat) Nat)
          [0]).1).compact
        (PrefixTreeMap.new : PrefixTreeMap (List Nat) Nat).compact = true
    ∧ ((PrefixTreeMap.entryProbe kbId (PrefixTreeMap.new : PrefixTreeMap (List Nat) Nat)
          [0]).1).entries
        = (PrefixTreeMap.new : PrefixTreeMap (List Nat) Nat).entries := by
  refine ⟨by decide, by decide, ?_⟩
  rfl

/-- Claim C3 (amended): equality, ordering and hash are derived, hence
structural, so spurious empty nodes left by the entry API do affect them
until `compact()` runs.  `compact()` erases their influence entirely:
compacting a tree probed by the entry API yields exactly the compacted
original tree, compaction is idempotent, and compaction changes neither the
entries nor `len`. -/
theorem claim_C3 {K V : Type} (kb : K → List Nat) (m : PrefixTreeMap K V) (key : K) :
    ((PrefixTreeMap.entryProbe kb m key).1).compact = m.compact
    ∧ m.compact.compact = m.compact
    ∧ m.compact.entries = m.entries
    ∧ m.compact.len = m.len := by
  refine ⟨PrefixTreeMap.entryProbe_compact kb m key, PrefixTreeMap.compact_idem_map m, ?_, rfl⟩
  show (m.root.compact).1.toList = m.root.toList
  exact Node.compact_toList m.root

/-- Claim C5: with no insertion in between, two consecutive `entry(k)`
probes for an absent key both report Vacant, neither changes `len`, the
second traversal changes nothing at all (in particular it creates no new
node), and the root's `key_fragment` is never modified. -/
theorem claim_C5 {K V : Type} (kb : K → List Nat) (m : PrefixTreeMap K V) (key : K)
    (hs : m.root.sortedB = true) (habs : m.contains_key (kb key) = false) :
    (PrefixTreeMap.entryProbe kb m key).2 = true
    ∧ (PrefixTreeMap.entryProbe kb (PrefixTreeMap.entryProbe kb m key).1 key).2 = true
    ∧ ((PrefixTreeMap.entryProbe kb m key).1).len = m.len
    ∧ (PrefixTreeMap.entryProbe kb (PrefixTreeMap.entryProbe kb m key).1 key).1
        = (PrefixTreeMap.entryProbe kb m key).1
    ∧ ((PrefixTreeMap.entryProbe kb m key).1).root.key_fragment = m.root.key_fragment := by
  rw [PrefixTreeMap.contains_key_eq_slot] at habs
  have hsl : m.root.slotAt (kb key) = none := by
    cases h0 : m.root.slotAt (kb key) with
    | none => rfl
    | some kv => rw [h0] at habs; cases habs
  have hs' := PrefixTreeMap.entryProbe_sortedB kb m key hs
  refine ⟨?_, ?_, rfl, PrefixTreeMap.entryProbe_idem kb m key hs, ?_⟩
  · rw [PrefixTreeMap.entryProbe_vacant kb m key hs, hsl]
    rfl
  · rw [PrefixTreeMap.entryProbe_vacant kb _ key hs',
      PrefixTreeMap.entryProbe_slot kb m key hs (kb key), hsl]
    rfl
  · rw [PrefixTreeMap.entryProbe_root]
    exact Node.updateAt_kf _ m.root (kb key)

/-- Claim C6: `compact()` changes neither `len`, nor membership, nor the
iteration sequence, nor the entries; and once it has run, any further
number of `compact()` calls leaves the map exactly as after the first
call. -/
theorem claim_C6 {K V : Type} (m : PrefixTreeMap K V) (h : m.Inv) :
    m.compact.len = m.len
    ∧ (∀ q, m.compact.contains_key q = m.contains_key q)
    ∧ (m.compact.iter).run = (m.iter).run
    ∧ m.compact.entries = m.entries
    ∧ (∀ j : Nat, PrefixTreeMap.compact^[j] m.compact = m.compact) := by
  refine ⟨rfl, ?_, ?_, ?_, ?_⟩
  · intro q
    rw [PrefixTreeMap.contains_key_eq_slot, PrefixTreeMap.contains_key_eq_slot,
      PrefixTreeMap.compact_root, Node.compact_slotAt q m.root h.1]
  · rw [PrefixTreeMap.iter_run, PrefixTreeMap.iter_run, PrefixTreeMap.compact_root,
      Node.compact_toList]
  · show (m.root.compact).1.toList = m.root.toList
    exact Node.compact_toList m.root
  · intro j
    induction j with
    | zero => exact Function.iterate_zero_apply _ _
    | succ j ih =>
      rw [Function.iterate_succ_apply', ih]
      exact PrefixTreeMap.compact_idem_map m

/-- Claim C7: removing an absent key returns nothing and leaves the map
unchanged; removing a present key returns its value, decrements `len` by
exactly one, and afterwards `contains_key` is false for that key. -/
theorem claim_C7 {K V : Type} (m : PrefixTreeMap K V) (key : List Nat) (h : m.Inv) :
    (m.contains_key key = false → m.remove key = (none, m))
    ∧ (∀ v : V, m.get key = some v →
        (m.remove key).1 = some v
        ∧ (m.remove key).2.len + 1 = m.len
        ∧ (m.remove key).2.contains_key key = false) := by
  constructor
  · intro hab
    rw [PrefixTreeMap.remove_eq, PrefixTreeMap.remove_entry_absent m key h.1 hab]
    rfl
  · intro v hget
    rw [PrefixTreeMap.get_eq_slot] at hget
    have hex : ∃ kv : K × V, m.root.slotAt key = some kv ∧ kv.2 = v := by
      cases h0 : m.root.slotAt key with
      | none => rw [h0] at hget; cases hget
      | some kv =>
        rw [h0] at hget
        exact ⟨kv, rfl, by simpa using hget⟩
    obtain ⟨kv, hsl, hv⟩ := hex
    cases ht : m.root.takeItemAt key with
    | none =>
      exfalso
      have h0 := (Node.takeItemAt_none_iff key m.root h.1).mp ht
      rw [hsl] at h0
      cases h0
    | some r =>
      obtain ⟨rkv, rroot⟩ := r
      obtain ⟨hread, hclear, _, _, hcnt, _, _⟩ :=
        Node.takeItemAt_some_spec key m.root rkv rroot h.1 ht
      have hre : m.remove_entry key = (some rkv, ⟨rroot, m.len - 1⟩) := by
        show (match m.root.takeItemAt key with
          | none => (none, m)
          | some (kv, root') => (some kv, ⟨root', m.len - 1⟩)) = _
        rw [ht]
      have hrkv : rkv = kv := by
        rw [hsl] at hread
        cases hread
        rfl
      refine ⟨?_, ?_, ?_⟩
      · rw [PrefixTreeMap.remove_eq, hre]
        show some rkv.2 = some v
        rw [hrkv, hv]
      · rw [PrefixTreeMap.remove_eq, hre]
        show m.len - 1 + 1 = m.len
        have := h.2
        omega
      · rw [PrefixTreeMap.remove_eq, hre, PrefixTreeMap.contains_key_eq_slot]
        show (rroot.slotAt key).isSome = false
        rw [hclear]
        rfl

end Pfx

namespace Pfx

/-- Claim C4: after `insert(k, v)`, `get(k)` returns `v`; and
`insert(k, v1)` followed by `insert(k, v2)` makes the second call return
`v1` as the prior value and leaves the map with exactly one entry whose key
has `k`'s bytes, and whose value is `v2`. -/
theorem claim_C4 {K V : Type} (kb : K → List Nat) (m : PrefixTreeMap K V)
    (k : K) (v v1 v2 : V) (h : m.WF kb) :
    ((PrefixTreeMap.insert kb m k v).1).get (kb k) = some v
    ∧ (PrefixTreeMap.insert kb ((PrefixTreeMap.insert kb m k v1).1) k v2).2 = some v1
    ∧ ∃ k₀ : K, kb k₀ = kb k
        ∧ ((PrefixTreeMap.insert kb ((PrefixTreeMap.insert kb m k v1).1) k v2).1).entries.filter
            (fun kv => kb kv.1 == kb k) = [(k₀, v2)] := by
  have hs := h.1
  have hWF1 := PrefixTreeMap.insert_WF kb m k v1 h
  have hWF2 := PrefixTreeMap.insert_WF kb _ k v2 hWF1
  refine ⟨PrefixTreeMap.insert_get_self kb m k v hs, ?_, ?_⟩
  · rw [PrefixTreeMap.insert_snd kb _ k v2 hWF1.1]
    exact PrefixTreeMap.insert_get_self kb m k v1 hs
  · cases hsl : m.root.slotAt (kb k) with
    | none =>
      have hsl1 : ((PrefixTreeMap.insert kb m k v1).1).root.slotAt (kb k) = some (k, v1) := by
        rw [PrefixTreeMap.insert_slot_self kb m k v1 hs, hsl]
      have hsl2 : ((PrefixTreeMap.insert kb ((PrefixTreeMap.insert kb m k v1).1) k
          v2).1).root.slotAt (kb k) = some (k, v2) := by
        rw [PrefixTreeMap.insert_slot_self kb _ k v2 hWF1.1, hsl1]
      refine ⟨k, rfl, ?_⟩
      have hfe := Node.toList_filter_exact kb (kb k) []
        ((PrefixTreeMap.insert kb ((PrefixTreeMap.insert kb m k v1).1) k v2).1).root
        hWF2.1 hWF2.2.1
      rw [hsl2] at hfe
      exact hfe
    | some kv₀ =>
      have hkb : kb kv₀.1 = kb k := Node.slotAt_key_bytes kb hs h.2.1 hsl
      have hsl1 : ((PrefixTreeMap.insert kb m k v1).1).root.slotAt (kb k)
          = some (kv₀.1, v1) := by
        rw [PrefixTreeMap.insert_slot_self kb m k v1 hs, hsl]
      have hsl2 : ((PrefixTreeMap.insert kb ((PrefixTreeMap.insert kb m k v1).1) k
          v2).1).root.slotAt (kb k) = some (kv₀.1, v2) := by
        rw [PrefixTreeMap.insert_slot_self kb _ k v2 hWF1.1, hsl1]
      refine ⟨kv₀.1, hkb, ?_⟩
      have hfe := Node.toList_filter_exact kb (kb k) []
        ((PrefixTreeMap.insert kb ((PrefixTreeMap.insert kb m k v1).1) k v2).1).root
        hWF2.1 hWF2.2.1
      rw [hsl2] at hfe
      exact hfe

/-- Claim C10: the set-level prefix test is a pure existence predicate:
it returns true exactly when some key of the set has the queried byte
sequence as a prefix. -/
theorem claim_C10 {T : Type} (kb : T → List Nat) (s : PrefixTreeSet T)
    (h : s.map.WF kb) (p : List Nat) :
    PrefixTreeSet.contains_prefix s p = true
      ↔ ∃ kv ∈ s.map.entries, p <+: kb kv.1 := by
  have hfilter := Node.toList_filter_search kb p [] s.map.root h.1 h.2.1
  cases hsr : s.map.root.search p with
  | none =>
    have hcp : PrefixTreeSet.contains_prefix s p = false := by
      simp only [PrefixTreeSet.contains_prefix, PrefixTreeMap.contains_prefix, hsr]
    rw [hsr] at hfilter
    have hfe : s.map.root.toList.filter (fun kv => ([] ++ p).isPrefixOf (kb kv.1)) = [] :=
      hfilter
    rw [hcp]
    constructor
    · intro hab
      cases hab
    · intro hexh
      obtain ⟨kv, hm, hpfx⟩ := hexh
      have hin : kv ∈ s.map.root.toList.filter (fun kv => ([] ++ p).isPrefixOf (kb kv.1)) := by
        refine List.mem_filter.mpr ⟨hm, ?_⟩
        rw [ List.isPrefixOf_iff_prefix]
        simpa using hpfx
      rw [hfe] at hin
      cases hin
  | some nd =>
    have hcp : PrefixTreeSet.contains_prefix s p = nd.hasItem := by
      simp only [PrefixTreeSet.contains_prefix, PrefixTreeMap.contains_prefix, hsr]
    rw [hsr] at hfilter
    have hfe : s.map.root.toList.filter (fun kv => ([] ++ p).isPrefixOf (kb kv.1))
        = nd.toList := hfilter
    rw [hcp, Node.hasItem_iff_toList_ne_nil]
    constructor
    · intro hne
      rw [← hfe] at hne
      obtain ⟨kv, hkvm⟩ := List.exists_mem_of_ne_nil _ hne
      obtain ⟨hm, hpred⟩ := List.mem_filter.mp hkvm
      refine ⟨kv, hm, ?_⟩
      rw [ List.isPrefixOf_iff_prefix] at hpred
      simpa using hpred
    · intro hexh
      obtain ⟨kv, hm, hpfx⟩ := hexh
      have hin : kv ∈ s.map.root.toList.filter
          (fun kv => ([] ++ p).isPrefixOf (kb kv.1)) := by
        refine List.mem_filter.mpr ⟨hm, ?_⟩
        rw [ List.isPrefixOf_iff_prefix]
        simpa using hpfx
      rw [hfe] at hin
      exact List.ne_nil_of_mem hin

/-- Claim C2: the prefix iterators (borrowing and owning agree) yield
exactly the subsequence of the map's sorted entry listing whose keys start
with the queried bytes; the empty prefix reproduces the whole-tree
iteration; and a prefix whose node path does not exist gives an immediately
exhausted iterator, not an error. -/
theorem claim_C2 {K V : Type} (kb : K → List Nat) (m : PrefixTreeMap K V) (h : m.WF kb) :
    (∀ p, m.into_prefix_iter p = m.prefix_iter p)
    ∧ (∀ p, (m.prefix_iter p).run
        = m.entries.filter (fun kv => p.isPrefixOf (kb kv.1)))
    ∧ (m.prefix_iter []).run = (m.iter).run
    ∧ (∀ p, m.root.search p = none →
        (m.prefix_iter p).next = none ∧ (m.prefix_iter p).run = []) := by
  have hrun : ∀ p, (m.prefix_iter p).run
      = m.entries.filter (fun kv => p.isPrefixOf (kb kv.1)) := by
    intro p
    have hfilter := Node.toList_filter_search kb p [] m.root h.1 h.2.1
    show (match m.root.search p with
      | none => NodeIterS.mk none [] none
      | some n => n.iterS).run = _
    cases hsr : m.root.search p with
    | none =>
      rw [hsr] at hfilter
      exact hfilter.symm
    | some nd =>
      rw [hsr] at hfilter
      rw [Node.run_iterS]
      exact hfilter.symm
  refine ⟨fun p => rfl, hrun, ?_, ?_⟩
  · rw [PrefixTreeMap.iter_run, hrun []]
    have hall : ∀ kv ∈ m.entries, (fun kv => ([] : List Nat).isPrefixOf (kb kv.1)) kv = true := by
      intro kv hkv
      show ([] : List Nat).isPrefixOf (kb kv.1) = true
      rw [ List.isPrefixOf_iff_prefix]
      exact List.nil_prefix
    rw [List.filter_eq_self.mpr hall]
    rfl
  · intro p hnone
    constructor
    · show (match m.root.search p with
        | none => NodeIterS.mk none [] none
        | some n => n.iterS).next = none
      rw [hnone]
      rfl
    · have h0 := hrun p
      have hfilter := Node.toList_filter_search kb p [] m.root h.1 h.2.1
      rw [hnone] at hfilter
      rw [h0]
      exact hfilter

/-- Claim C1: the whole-tree iterators (`iter` and the identically built
consuming `into_iter`, with the keys/values projections) yield exactly the
map's entries, in strict lexicographic order of the keys' bytes, report
`len` minus the yielded count as the exact remaining length at every step,
and the keys/values sequences are the corresponding projections. -/
theorem claim_C1 {K V : Type} (kb : K → List Nat) (m : PrefixTreeMap K V) (h : m.WF kb) :
    m.into_iter = m.iter
    ∧ (m.iter).run = m.entries
    ∧ List.Pairwise (fun x y => List.Lex (· < ·) (kb x.1) (kb y.1)) m.entries
    ∧ (m.iter).len = m.len
    ∧ m.len = m.entries.length
    ∧ (∀ (st : Iter K V) (x : K × V) (st' : Iter K V), st.len = st.run.length →
        Iter.next st = some (x, st') →
        st.run = x :: st'.run ∧ st'.len = st'.run.length)
    ∧ Keys.run (m.iter) = m.entries.map Prod.fst
    ∧ Values.run (m.iter) = m.entries.map Prod.snd := by
  refine ⟨rfl, PrefixTreeMap.iter_run m, ?_, rfl, ?_, ?_, ?_, ?_⟩
  · exact Node.toList_sorted kb m.root [] h.1 h.2.1
  · rw [h.2.2]
    exact Node.count_eq_toList_length m.root
  · intro st x st' hlen hn
    exact ⟨Iter.next_some_run hn, Iter.len_invariant hlen hn⟩
  · rw [Keys.run_map_fst, PrefixTreeMap.iter_run]
    rfl
  · rw [Values.run_map_snd, PrefixTreeMap.iter_run]
    rfl

end Pfx

namespace Pfx

/-- Claim C8 counterexample: when `other` repeats a key, the claimed net
effect fails.  The key `[0]` is absent from `self` and present (twice) in
`other`, so it is exclusively on one side and should survive; but the
pair-by-pair processing first inserts it and then removes it, so the final
map does not contain it. -/
theorem claim_C8_cex :
    (PrefixTreeMap.symmetric_difference kbId (PrefixTreeMap.new : PrefixTreeMap (List Nat) Nat)
        [([0], 1), ([0], 2)]).contains_key [0] = false
    ∧ (PrefixTreeMap.new : PrefixTreeMap (List Nat) Nat).contains_key [0] = false := by
  refine ⟨by decide, by decide⟩

/-- Claim C8 (amended): `symmetric_difference` processes each incoming
pair in order, removing the key when present and inserting the pair when
absent; provided the incoming keys are pairwise distinct (no key of `other`
repeats under the byte projection), the net effect is exactly the claimed
one: a slot survives with `self`'s original pair when only `self` had the
key, with `other`'s pair when only `other` had it, and is emptied when both
sides had it.  The by-value variant is the in-place variant followed by
returning `self`. -/
theorem claim_C8 {K V : Type} (kb : K → List Nat) (other : List (K × V))
    (m : PrefixTreeMap K V) (h : m.Inv)
    (hnd : (other.map (fun kv => kb kv.1)).Nodup) :
    PrefixTreeMap.symmetric_difference kb m other
        = PrefixTreeMap.symmetric_difference_in_place kb m other
    ∧ ∀ q, (PrefixTreeMap.symmetric_difference_in_place kb m other).root.slotAt q
        = match other.find? (fun kv => kb kv.1 == q) with
          | none => m.root.slotAt q
          | some kv =>
            match m.root.slotAt q with
            | none => some kv
            | some _ => none :=
  ⟨rfl, PrefixTreeMap.symdiff_slot kb other m h.1 hnd⟩

/-- Claim C9: the structural invariant — children strictly sorted by
`key_fragment` (hence without duplicate labels) and `len` equal to the
number of populated items — holds for the fresh map and is preserved by
every mutating public operation of the map and of the set. -/
theorem claim_C9 {K V : Type} (kb : K → List Nat) (m : PrefixTreeMap K V) (h : m.Inv) :
    (PrefixTreeMap.new : PrefixTreeMap K V).Inv
    ∧ (m.root.children.map Node.key_fragment).Nodup
    ∧ (∀ (key : K) (value : V), ((PrefixTreeMap.insert kb m key value).1).Inv)
    ∧ (∀ key : K, ((PrefixTreeMap.entryProbe kb m key).1).Inv)
    ∧ (∀ q, ((m.remove_entry q).2).Inv)
    ∧ (∀ q, ((m.remove q).2).Inv)
    ∧ m.compact.Inv
    ∧ (∀ other : List (K × V), (PrefixTreeMap.union_in_place kb m other).Inv
        ∧ (PrefixTreeMap.union kb m other).Inv)
    ∧ (∀ other : List (List Nat), (PrefixTreeMap.difference_in_place m other).Inv
        ∧ (PrefixTreeMap.difference m other).Inv)
    ∧ (∀ other : List (K × V),
        (PrefixTreeMap.symmetric_difference_in_place kb m other).Inv
        ∧ (PrefixTreeMap.symmetric_difference kb m other).Inv)
    ∧ (∀ other : List (List Nat), (PrefixTreeMap.intersection kb m other).Inv)
    ∧ (∀ (kbs : K → List Nat) (s : PrefixTreeSet K) (key : K), s.map.Inv →
        ((PrefixTreeSet.insert kbs s key).1).map.Inv)
    ∧ (∀ (s : PrefixTreeSet K) (q : List Nat), s.map.Inv →
        ((PrefixTreeSet.remove s q).1).map.Inv)
    ∧ (∀ s : PrefixTreeSet K, s.map.Inv → (PrefixTreeSet.compact s).map.Inv) := by
  refine ⟨PrefixTreeMap.new_Inv, List.pairwise_map.mpr (Node.kf_nodup h.1), ?_, ?_, ?_, ?_,
    PrefixTreeMap.compact_Inv m h, ?_, ?_, ?_, ?_, ?_, ?_, ?_⟩
  · intro key value
    exact PrefixTreeMap.insert_Inv kb m key value h
  · intro key
    refine ⟨PrefixTreeMap.entryProbe_sortedB kb m key h.1, ?_⟩
    rw [PrefixTreeMap.entryProbe_len, PrefixTreeMap.entryProbe_count kb m key h.1]
    exact h.2
  · intro q
    exact PrefixTreeMap.remove_Inv m q h
  · intro q
    exact PrefixTreeMap.remove_Inv m q h
  · intro other
    exact ⟨PrefixTreeMap.union_Inv kb other m h, PrefixTreeMap.union_Inv kb other m h⟩
  · intro other
    exact ⟨PrefixTreeMap.difference_Inv other m h, PrefixTreeMap.difference_Inv other m h⟩
  · intro other
    exact ⟨PrefixTreeMap.symdiff_Inv kb other m h, PrefixTreeMap.symdiff_Inv kb other m h⟩
  · intro other
    exact PrefixTreeMap.intersection_Inv kb m other h
  · intro kbs s key hsm
    exact PrefixTreeMap.insert_Inv kbs s.map key () hsm
  · intro s q hsm
    exact PrefixTreeMap.remove_Inv s.map q hsm
  · intro s hsm
    exact PrefixTreeMap.compact_Inv s.map hsm

end Pfx

namespace Pfx

/-- Claim C1 witness at a concrete map. -/
theorem claim_C1_witness :
    sampleMap.WF kbId ∧ (sampleMap.iter).run = sampleMap.entries :=
  ⟨by exact ⟨by decide, by decide, by decide⟩,
    (claim_C1 kbId sampleMap (by exact ⟨by decide, by decide, by decide⟩)).2.1⟩

/-- Claim C2 witness at a concrete map and prefix. -/
theorem claim_C2_witness :
    sampleMap.WF kbId
    ∧ (sampleMap.prefix_iter [4]).run
        = sampleMap.entries.filter (fun kv => [4].isPrefixOf (kbId kv.1)) :=
  ⟨by exact ⟨by decide, by decide, by decide⟩,
    (claim_C2 kbId sampleMap (by exact ⟨by decide, by decide, by decide⟩)).2.1 [4]⟩

/-- Claim C4 witness at a concrete map, key and values. -/
theorem claim_C4_witness :
    sampleMap.WF kbId
    ∧ ((PrefixTreeMap.insert kbId sampleMap [1, 2, 3] 7).1).get (kbId [1, 2, 3]) = some 7 :=
  ⟨by exact ⟨by decide, by decide, by decide⟩,
    (claim_C4 kbId sampleMap [1, 2, 3] 7 8 9 (by exact ⟨by decide, by decide, by decide⟩)).1⟩

/-- Claim C5 witness at a concrete map and absent key. -/
theorem claim_C5_witness :
    sampleMap.root.sortedB = true
    ∧ sampleMap.contains_key (kbId [7, 7]) = false
    ∧ (PrefixTreeMap.entryProbe kbId sampleMap [7, 7]).2 = true :=
  ⟨by decide, by decide, (claim_C5 kbId sampleMap [7, 7] (by decide) (by decide)).1⟩

/-- Claim C6 witness at a concrete map. -/
theorem claim_C6_witness :
    sampleMap.Inv ∧ sampleMap.compact.len = sampleMap.len :=
  ⟨by exact ⟨by decide, by decide⟩, (claim_C6 sampleMap (by exact ⟨by decide, by decide⟩)).1⟩

/-- Claim C7 witness at a concrete map and present key. -/
theorem claim_C7_witness :
    sampleMap.Inv
    ∧ (sampleMap.remove [1, 2, 3]).1 = some 123
    ∧ (sampleMap.remove [1, 2, 3]).2.len + 1 = sampleMap.len
    ∧ (sampleMap.remove [1, 2, 3]).2.contains_key [1, 2, 3] = false :=
  ⟨by exact ⟨by decide, by decide⟩,
    (claim_C7 sampleMap [1, 2, 3] (by exact ⟨by decide, by decide⟩)).2 123 (by decide)⟩

/-- Claim C8 witness at a concrete map and duplicate-free batch. -/
theorem claim_C8_witness :
    sampleMap.Inv
    ∧ ([([9], 9), ([1, 2, 3], 5)].map (fun kv => kbId kv.1)).Nodup
    ∧ PrefixTreeMap.symmetric_difference kbId sampleMap [([9], 9), ([1, 2, 3], 5)]
        = PrefixTreeMap.symmetric_difference_in_place kbId sampleMap
            [([9], 9), ([1, 2, 3], 5)] :=
  ⟨by exact ⟨by decide, by decide⟩, by decide,
    (claim_C8 kbId [([9], 9), ([1, 2, 3], 5)] sampleMap
      (by exact ⟨by decide, by decide⟩) (by decide)).1⟩

/-- Claim C9 witness at a concrete map. -/
theorem claim_C9_witness :
    sampleMap.Inv ∧ (PrefixTreeMap.new : PrefixTreeMap (List Nat) Nat).Inv :=
  ⟨by exact ⟨by decide, by decide⟩, (claim_C9 kbId sampleMap (by exact ⟨by decide, by decide⟩)).1⟩

/-- Claim C10 witness at a concrete set and prefix. -/
theorem claim_C10_witness :
    sampleSet.map.WF kbId
    ∧ ( PrefixTreeSet.contains_prefix sampleSet [1] = true
        ↔ ∃ kv ∈ sampleSet.map.entries, [1] <+: kbId kv.1) :=
  ⟨by exact ⟨by decide, by decide, by decide⟩,
    claim_C10 kbId sampleSet (by exact ⟨by decide, by decide, by decide⟩) [1]⟩

end Pfx
